import Mathlib

/-!
Verification development for the `jobsim` discrete-event simulator.

The definitions below are shallow embeddings of the Python sources:
`src/event_queue.py` (heap-based event queue, including the exact CPython
`heapq` sift routines it relies on), `src/jobsim/workers_model.py`
(worker pool and admission policy), `src/jobsim/jobsim.py` (simulation
kernel), `src/jobsim/jobgen.py` (job arrival generator) and
`src/jobsim/sim_histogram.py` (histogram construction).  Python integers
are embedded as `Int` (or `Nat` where the source value is a count that is
never negative), Python lists as `List`, `None`-returning functions as
`Option`, and exception-raising code as `Except`.
-/

set_option maxRecDepth 4096

namespace JobSim

/-- `Event` from `event_queue.py`: an integer timestamp, an event-type tag
and a payload.  The payload type is a parameter. -/
structure Event (α : Type) where
  timestamp : Int
  event_type : String
  data : α
deriving Repr, DecidableEq

/-- `Event.__lt__`: events are ordered by timestamp only. -/
def eventLt {α : Type} (a b : Event α) : Bool :=
  a.timestamp < b.timestamp

/-- Comparison of two heap slots, `heap[i] < heap[j]`, as performed by
CPython's `_siftup`.  Out-of-range slots (never hit by the callers on the
ranges they use) compare as `false`. -/
def slotLt {α : Type} (heap : List (Event α)) (i j : Nat) : Bool :=
  match heap[i]?, heap[j]? with
  | some a, some b => eventLt a b
  | _, _ => false

/-- The loop of CPython `heapq._siftdown(heap, startpos, pos)` after
reading `newitem = heap[pos]`: bubble the new item up towards `startpos`,
moving larger parents down.  The `fuel` argument makes the `while` loop
structurally recursive; the wrapper `siftdownAux` passes `pos`, which
bounds the iteration count because `pos` strictly decreases, so the
fuel-exhausted branch (which coincides with the loop-exit write) is never
taken on the wrapper's calls. -/
def siftdownAuxF {α : Type} :
    Nat → List (Event α) → Nat → Nat → Event α → List (Event α)
  | 0, heap, _, pos, newitem => heap.set pos newitem
  | fuel + 1, heap, startpos, pos, newitem =>
    if startpos < pos then
      match heap[(pos - 1) / 2]? with
      | some parent =>
        if eventLt newitem parent then
          siftdownAuxF fuel (heap.set pos parent) startpos ((pos - 1) / 2)
            newitem
        else
          heap.set pos newitem
      | none => heap.set pos newitem
    else
      heap.set pos newitem

/-- CPython `heapq._siftdown(heap, startpos, pos)` with `newitem` already
read from `heap[pos]`. -/
def siftdownAux {α : Type} (heap : List (Event α)) (startpos pos : Nat)
    (newitem : Event α) : List (Event α) :=
  siftdownAuxF pos heap startpos pos newitem

/-- CPython `heapq._siftdown(heap, startpos, pos)`. -/
def siftdown {α : Type} (heap : List (Event α)) (startpos pos : Nat) :
    List (Event α) :=
  match heap[pos]? with
  | some newitem => siftdownAux heap startpos pos newitem
  | none => heap

/-- CPython `heapq.heappush(heap, item)`: append, then sift the new last
element up from position `len(heap) - 1`. -/
def heappush {α : Type} (heap : List (Event α)) (item : Event α) :
    List (Event α) :=
  siftdownAux (heap ++ [item]) 0 heap.length item

/-- The loop of CPython `heapq._siftup(heap, pos)` after reading
`newitem = heap[pos]`: walk the hole at `pos` down to a leaf, always
promoting the smaller child (the right child when the two compare equal,
because the test is `not heap[childpos] < heap[rightpos]`), then bubble
`newitem` up from the leaf with `_siftdown`.  As for `siftdownAuxF`, the
`fuel` argument bounds the loop; the wrapper passes `endpos`, which always
dominates the remaining iteration count `endpos - pos`, and the
fuel-exhausted branch coincides with the loop-exit code. -/
def siftupAuxF {α : Type} :
    Nat → List (Event α) → Nat → Nat → Nat → Event α → List (Event α)
  | 0, heap, _, startpos, pos, newitem =>
    siftdownAux (heap.set pos newitem) startpos pos newitem
  | fuel + 1, heap, endpos, startpos, pos, newitem =>
    if 2 * pos + 1 < endpos then
      if 2 * pos + 2 < endpos ∧ slotLt heap (2 * pos + 1) (2 * pos + 2) = false
      then
        match heap[2 * pos + 2]? with
        | some child =>
          siftupAuxF fuel (heap.set pos child) endpos startpos (2 * pos + 2)
            newitem
        | none => heap
      else
        match heap[2 * pos + 1]? with
        | some child =>
          siftupAuxF fuel (heap.set pos child) endpos startpos (2 * pos + 1)
            newitem
        | none => heap
    else
      siftdownAux (heap.set pos newitem) startpos pos newitem

/-- The loop of CPython `heapq._siftup` with the fuel instantiated. -/
def siftupAux {α : Type} (heap : List (Event α)) (endpos startpos pos : Nat)
    (newitem : Event α) : List (Event α) :=
  siftupAuxF endpos heap endpos startpos pos newitem

/-- CPython `heapq._siftup(heap, pos)`; `endpos` is `len(heap)` and
`startpos` is `pos`. -/
def siftup {α : Type} (heap : List (Event α)) (pos : Nat) : List (Event α) :=
  match heap[pos]? with
  | some newitem => siftupAux heap heap.length pos pos newitem
  | none => heap

/-- CPython `heapq.heappop(heap)`: remove the last element; if anything
remains, remember the root, overwrite it with the old last element and sift
it down.  The empty case (where CPython raises `IndexError`) is mapped to
`(none, heap)`; `EventQueue.pop` guards it away with `is_empty`. -/
def heappop {α : Type} (heap : List (Event α)) :
    Option (Event α) × List (Event α) :=
  match heap.getLast? with
  | none => (none, heap)
  | some lastelt =>
    match heap.dropLast[0]? with
    | some returnitem =>
      (some returnitem, siftup (heap.dropLast.set 0 lastelt) 0)
    | none => (some lastelt, [])

/-- `EventQueue` from `event_queue.py`: the `_events` heap list and the
`_event_count` counter. -/
structure EventQueue (α : Type) where
  events : List (Event α)
  event_count : Nat
deriving Repr, DecidableEq

namespace EventQueue

/-- `EventQueue.__init__`. -/
def init {α : Type} : EventQueue α := ⟨[], 0⟩

/-- `EventQueue.push(timestamp, event_type, data)`. -/
def push {α : Type} (q : EventQueue α) (timestamp : Int) (event_type : String)
    (data : α) : EventQueue α :=
  ⟨heappush q.events ⟨timestamp, event_type, data⟩, q.event_count + 1⟩

/-- `EventQueue.push_event(event)`. -/
def pushEvent {α : Type} (q : EventQueue α) (e : Event α) : EventQueue α :=
  ⟨heappush q.events e, q.event_count + 1⟩

/-- `EventQueue.is_empty()`. -/
def isEmpty {α : Type} (q : EventQueue α) : Bool :=
  q.events.length == 0

/-- `EventQueue.pop()`: `None` on an empty queue, otherwise `heappop` plus
the counter decrement.  Returns the popped event together with the queue
state after the call. -/
def pop {α : Type} (q : EventQueue α) : Option (Event α) × EventQueue α :=
  if q.isEmpty then (none, q)
  else
    let r := heappop q.events
    (r.1, ⟨r.2, q.event_count - 1⟩)

/-- `EventQueue.peek()`. -/
def peek {α : Type} (q : EventQueue α) : Option (Event α) :=
  if q.isEmpty then none else q.events[0]?

/-- `EventQueue.size()`. -/
def size {α : Type} (q : EventQueue α) : Nat :=
  q.event_count

/-- Queue states reachable through the public constructor and mutators of
`EventQueue`. -/
inductive Reachable {α : Type} : EventQueue α → Prop where
  | init : Reachable init
  | push (q : EventQueue α) (ts : Int) (ty : String) (d : α) :
      Reachable q → Reachable (q.push ts ty d)
  | pushEvent (q : EventQueue α) (e : Event α) :
      Reachable q → Reachable (q.pushEvent e)
  | pop (q : EventQueue α) : Reachable q → Reachable (q.pop).2

end EventQueue

/-- Index of the heap parent of slot `j`: `(j - 1) >> 1` in CPython. -/
def parentIdx (j : Nat) : Nat := (j - 1) / 2

/-- Timestamp comparison between two populated slots of a heap list:
whenever both `l[i]?` and `l[j]?` hold events, the one at `i` has the
smaller-or-equal timestamp. -/
def PairLe {α : Type} (l : List (Event α)) (i j : Nat) : Prop :=
  ∀ x y, l[i]? = some x → l[j]? = some y → x.timestamp ≤ y.timestamp

/-- The min-heap invariant maintained by the `heapq` routines: every slot's
timestamp is at least its parent's. -/
def IsHeap {α : Type} (l : List (Event α)) : Prop :=
  ∀ j : Nat, 0 < j → PairLe l (parentIdx j) j

/-- The heap invariant for all parent-child pairs not touching slot `p`
(the "hole"). -/
def HeapExcept {α : Type} (l : List (Event α)) (p : Nat) : Prop :=
  ∀ j : Nat, 0 < j → j ≠ p → parentIdx j ≠ p → PairLe l (parentIdx j) j

/-- Both children of the hole `p` have timestamps at least `v.timestamp`. -/
def ChildrenGE {α : Type} (l : List (Event α)) (p : Nat) (v : Event α) : Prop :=
  ∀ j : Nat, 0 < j → parentIdx j = p →
    ∀ y, l[j]? = some y → v.timestamp ≤ y.timestamp

/-- The parent of the hole `p` is below both children of the hole. -/
def GrandLe {α : Type} (l : List (Event α)) (p : Nat) : Prop :=
  0 < p → ∀ j : Nat, 0 < j → parentIdx j = p → PairLe l (parentIdx p) j

/-- Concrete test vector for the tie-breaking behaviour: four pushes with
timestamps 0, 1, 1, 2 and payloads recording the push order. -/
def tieExampleQueue : EventQueue Nat :=
  ((((EventQueue.init).push 0 "e" 0).push 1 "e" 1).push 1 "e" 2).push 2 "e" 3

/-- `WorkerStatus` from `workers_model.py`. -/
inductive WorkerStatus where
  | IN_POOL
  | READY
  | BUSY
deriving Repr, DecidableEq

/-- `PoolProperties` from `workers_model.py`. -/
structure PoolProperties where
  pool_size : Nat
  pool_priority : Int
  worker_startup_time : Nat
  worker_shutdown_time : Nat
deriving Repr, DecidableEq

/-- `WorkerDefinition` of the jobsim package's `sim_config` module.
Modelled from the spec: the package's `sim_config.py` is not among the
provided sources (the top-level `sim_config.py` is an older variant with
no worker definitions); §6 of the spec lists exactly these fields and §3
requires the capacity and both latencies to be non-negative integers. -/
structure WorkerDefinition where
  worker_type : String
  pool_size : Nat
  pool_priority : Int
  worker_startup_time : Nat
  worker_shutdown_time : Nat
deriving Repr, DecidableEq

/-- `Worker` from `workers_model.py`.  Python mutates `worker_status` in
place through shared references; here pool updates go through
`setWorkerStatus`, keyed by the unique worker id. -/
structure Worker where
  worker_type : String
  worker_status : WorkerStatus
  worker_id : Nat
deriving Repr, DecidableEq

/-- Assignment `POOL_PROPERTIES[worker_type] = ...`: a Python dict keeps
the original position of an existing key and appends new keys. -/
def dictInsert (d : List (String × PoolProperties)) (k : String)
    (v : PoolProperties) : List (String × PoolProperties) :=
  match d with
  | [] => [(k, v)]
  | (k', v') :: rest =>
    if k' = k then (k', v) :: rest else (k', v') :: dictInsert rest k v

/-- Lookup `POOL_PROPERTIES[worker_type]` (`none` models `KeyError`). -/
def propsLookup (props : List (String × PoolProperties)) (wt : String) :
    Option PoolProperties :=
  (props.find? (fun kv => kv.1 == wt)).map (fun kv => kv.2)

/-- `WorkerPool` from `workers_model.py`, together with the
`POOL_PROPERTIES` module global it (re)builds in `__init__`.  Each run
constructs exactly one pool from an import-fresh module state, so carrying
the dict inside the pool is faithful for a run. -/
structure WorkerPool where
  workers : List Worker
  pool_priorities : List Int
  pool_props : List (String × PoolProperties)
deriving Repr, DecidableEq

/-- The `POOL_PROPERTIES` contents after `WorkerPool.__init__` ran over
the configured worker definitions. -/
def buildProps (defs : List WorkerDefinition) :
    List (String × PoolProperties) :=
  defs.foldl
    (fun d wd => dictInsert d wd.worker_type
      ⟨wd.pool_size, wd.pool_priority, wd.worker_startup_time,
        wd.worker_shutdown_time⟩)
    []

/-- `self.pool_priorities`: every definition's priority, sorted ascending
(`list.sort()`; on integers any stable ascending sort computes the same
list). -/
def sortedPriorities (defs : List WorkerDefinition) : List Int :=
  (defs.map (fun wd => wd.pool_priority)).insertionSort (fun a b => a ≤ b)

/-- The worker-creation loop of `WorkerPool.__init__`: for each
`POOL_PROPERTIES` entry in dict order, `pool_size` workers with
consecutive ids, all `IN_POOL`. -/
def buildWorkersAux : List (String × PoolProperties) → Nat → List Worker
  | [], _ => []
  | (wt, pp) :: rest, idx =>
    ((List.range pp.pool_size).map
      (fun k => Worker.mk wt WorkerStatus.IN_POOL (idx + k)))
      ++ buildWorkersAux rest (idx + pp.pool_size)

/-- `WorkerPool.__init__` given the configuration's worker definitions. -/
def WorkerPool.init (defs : List WorkerDefinition) : WorkerPool :=
  let props := buildProps defs
  ⟨buildWorkersAux props 0, sortedPriorities defs, props⟩

/-- `worker.set_worker_status(st)` for the worker object with id `wid`:
the object is shared, so the pool slot holding it changes too. -/
def setWorkerStatus (ws : List Worker) (wid : Nat) (st : WorkerStatus) :
    List Worker :=
  ws.map (fun w => if w.worker_id = wid then { w with worker_status := st }
    else w)

/-- `set_worker_status` lifted to the pool. -/
def poolSetStatus (p : WorkerPool) (wid : Nat) (st : WorkerStatus) :
    WorkerPool :=
  { p with workers := setWorkerStatus p.workers wid st }

/-- `WorkerPool.allocate_ready_worker`: the first `READY` worker in list
order becomes `BUSY` and is returned (already mutated, as in Python). -/
def allocateReadyWorker (p : WorkerPool) : Option Worker × WorkerPool :=
  match p.workers.find? (fun w => w.worker_status == WorkerStatus.READY) with
  | some w =>
    (some { w with worker_status := WorkerStatus.BUSY },
      poolSetStatus p w.worker_id WorkerStatus.BUSY)
  | none => (none, p)

/-- The innermost loop of `acquire_in_pool_worker_prioritized`: first
worker in pool order that is `IN_POOL` and of the given type. -/
def inPoolOfType (ws : List Worker) (wt : String) : Option Worker :=
  ws.find? (fun w =>
    w.worker_status == WorkerStatus.IN_POOL && w.worker_type == wt)

/-- The middle loop of `acquire_in_pool_worker_prioritized`: scan
`POOL_PROPERTIES` in dict order for a tier of the given priority holding
an `IN_POOL` worker. -/
def acquireScanProps (ws : List Worker)
    (props : List (String × PoolProperties)) (priority : Int) :
    Option Worker :=
  props.findSome? (fun kv =>
    if kv.2.pool_priority = priority then inPoolOfType ws kv.1 else none)

/-- `WorkerPool.acquire_in_pool_worker_prioritized`: for each priority in
the sorted priority list, for each `POOL_PROPERTIES` entry of that
priority in dict order, return the first `IN_POOL` worker of that type in
pool order.  Contrary to its docstring ("Sets status to READY"), the code
performs no status change. -/
def acquireInPoolPrioritized (p : WorkerPool) : Option Worker :=
  p.pool_priorities.findSome?
    (acquireScanProps p.workers p.pool_props)

/-- `WorkerPool.invoke_worker`. -/
def invoke_worker (p : WorkerPool) : Option Worker :=
  acquireInPoolPrioritized p

/-- `worker.get_worker_activation_time()`:
`POOL_PROPERTIES[self.worker_type].worker_startup_time`.  The `none`
branch is Python's `KeyError`, unreachable for workers built by the pool. -/
def workerActivationTime (p : WorkerPool) (w : Worker) : Nat :=
  match propsLookup p.pool_props w.worker_type with
  | some pp => pp.worker_startup_time
  | none => 0

/-- `worker.get_worker_shutdown_time()`. -/
def workerShutdownTime (p : WorkerPool) (w : Worker) : Nat :=
  match propsLookup p.pool_props w.worker_type with
  | some pp => pp.worker_shutdown_time
  | none => 0

/-- The priority of the tier a worker belongs to (used only to state
properties; the `none` branch is again the unreachable `KeyError`). -/
def tierPriority (p : WorkerPool) (w : Worker) : Int :=
  match propsLookup p.pool_props w.worker_type with
  | some pp => pp.pool_priority
  | none => 0

/-- Structural well-formedness of a pool state.  It holds for pools built
by `WorkerPool.init` and only concerns the fields that status updates
never touch: every worker's tier is registered, every registered tier's
priority is listed, the priority list is sorted, worker ids strictly
increase in pool order, and tier tags are not duplicated. -/
def PoolWF (p : WorkerPool) : Prop :=
  (∀ w ∈ p.workers, (propsLookup p.pool_props w.worker_type).isSome = true) ∧
  (∀ kv ∈ p.pool_props, kv.2.pool_priority ∈ p.pool_priorities) ∧
  p.pool_priorities.Pairwise (fun a b => a ≤ b) ∧
  p.workers.Pairwise (fun a b => a.worker_id < b.worker_id) ∧
  (p.pool_props.map (fun kv => kv.1)).Nodup

instance (p : WorkerPool) : Decidable (PoolWF p) := by
  unfold PoolWF
  exact inferInstance

/-- `Job` from `jobgen.py` (the Python attribute `type` is called
`job_type` here). -/
structure Job where
  id : Nat
  job_type : String
  user_type : String
  submission_time : Int
  start_execution_time : Int
  server_type : Option String
  server_id : Option Nat
deriving Repr, DecidableEq

/-- `Job.__init__(id, type, user_type, submission_time)`. -/
def Job.init (id : Nat) (job_type user_type : String)
    (submission_time : Int) : Job :=
  ⟨id, job_type, user_type, submission_time, 0, none, none⟩

/-- The string values of the `EventType` enum in `jobsim.py`; the enum
members are in bijection with their `value` strings, which serve as the
`event_type` field of queued events. -/
def EventType.JOB_SUBMITTED : String := "job_submitted"

def EventType.WORKER_DONE : String := "worker_done"

def EventType.WORKER_READY : String := "worker_ready"

def EventType.WORKER_TO_POOL : String := "worker_to_pool"

/-- Event payloads of the kernel: a job or a worker. -/
inductive EventData where
  | job (j : Job)
  | worker (w : Worker)
deriving Repr, DecidableEq

/-- The configuration slice the kernel consumes: the worker definitions
plus `CONFIG.get_job_execution_duration` as a total duration table
(Python raises `ValueError` for a job type without a definition; runs
whose job types are all configured never hit that). -/
structure SimConfig where
  worker_definitions : List WorkerDefinition
  job_duration : String → Nat

/-- `SimState` from `jobsim.py` (`run_name` only affects output labels and
is omitted). -/
structure SimState where
  event_queue : EventQueue EventData
  workers_pool : WorkerPool
  pending_jobs : List Job
  completed_jobs : List Job
deriving Repr

/-- `SimState.__init__`. -/
def SimState.start (cfg : SimConfig) : SimState :=
  ⟨EventQueue.init, WorkerPool.init cfg.worker_definitions, [], []⟩

/-- `SimState.init_jobs_in_queue`. -/
def initJobsInQueue (s : SimState) (jobs : List Job) : SimState :=
  { s with
    event_queue := (jobs.foldl
      (fun q job => q.push job.submission_time EventType.JOB_SUBMITTED
        (EventData.job job))
      s.event_queue) }

/-- Argument of the mutually recursive handler pair
`handle_job_submitted` / `handle_worker_ready`; the mutual recursion is
encoded as a single function over this sum so that it is structurally
recursive in the fuel. -/
inductive HandlerCall where
  | jobSubmitted (t : Int) (job : Job)
  | workerReady (t : Int) (w : Worker)

/-- `SimState.handle_job_submitted` and `SimState.handle_worker_ready`
from `jobsim.py`, with explicit fuel for the mutual recursion.  The
returned flag is `false` iff some nested call ran out of fuel (Python
recursion is unbounded; the depth of real runs is at most three).  Debug
printing is omitted. -/
def handleEvent (cfg : SimConfig) : Nat → SimState → HandlerCall →
    SimState × Bool
  | 0, s, _ => (s, false)
  | fuel + 1, s, HandlerCall.jobSubmitted t job =>
    match allocateReadyWorker s.workers_pool with
    | (some worker, pool') =>
      let job' := { job with
        start_execution_time := t,
        server_type := some worker.worker_type,
        server_id := some worker.worker_id }
      ({ s with
          workers_pool := pool',
          completed_jobs := s.completed_jobs ++ [job'],
          event_queue := (s.event_queue.push
            (t + (cfg.job_duration job.job_type : Int))
            EventType.WORKER_DONE (EventData.worker worker)) }, true)
    | (none, _) =>
      let s₁ := { s with pending_jobs := s.pending_jobs ++ [job] }
      match invoke_worker s₁.workers_pool with
      | none => (s₁, true)
      | some worker =>
        if workerActivationTime s₁.workers_pool worker = 0 then
          handleEvent cfg fuel
            { s₁ with workers_pool := (poolSetStatus s₁.workers_pool
                worker.worker_id WorkerStatus.READY) }
            (HandlerCall.workerReady t worker)
        else
          ({ s₁ with event_queue := (s₁.event_queue.push
              (t + (workerActivationTime s₁.workers_pool worker : Int))
              EventType.WORKER_READY (EventData.worker worker)) }, true)
  | fuel + 1, s, HandlerCall.workerReady t worker =>
    let s₁ := { s with workers_pool := (poolSetStatus s.workers_pool
      worker.worker_id WorkerStatus.READY) }
    match s₁.pending_jobs with
    | job :: rest =>
      handleEvent cfg fuel { s₁ with pending_jobs := rest }
        (HandlerCall.jobSubmitted t job)
    | [] =>
      ({ s₁ with event_queue := (s₁.event_queue.push
          (t + (workerShutdownTime s₁.workers_pool worker : Int))
          EventType.WORKER_TO_POOL (EventData.worker worker)) }, true)

/-- `SimState.handle_worker_to_pool`. -/
def handleWorkerToPool (s : SimState) (worker : Worker) : SimState :=
  { s with workers_pool :=
    poolSetStatus s.workers_pool worker.worker_id WorkerStatus.IN_POOL }

/-- `SimState.run`: pop and dispatch until the queue drains.  `hfuel` is
the fuel handed to each handler call; `fuel` bounds the number of loop
iterations.  The flag is `true` iff the loop drained the queue without
any fuel exhaustion and without a malformed event (a `JOB_SUBMITTED`
carrying a worker or a worker event carrying a job, which would be a
Python `AttributeError`). -/
def runAux (cfg : SimConfig) (hfuel : Nat) : Nat → SimState → SimState × Bool
  | 0, s => (s, s.event_queue.isEmpty)
  | fuel + 1, s =>
    if s.event_queue.isEmpty then (s, true)
    else
      let r := s.event_queue.pop
      match r.1 with
      | none => (s, false)
      | some e =>
        let s₁ := { s with event_queue := r.2 }
        if e.event_type == EventType.JOB_SUBMITTED then
          match e.data with
          | EventData.job job =>
            let h := handleEvent cfg hfuel s₁ (HandlerCall.jobSubmitted e.timestamp job)
            let rest := runAux cfg hfuel fuel h.1
            (rest.1, h.2 && rest.2)
          | EventData.worker _ => (s₁, false)
        else if e.event_type == EventType.WORKER_READY
            || e.event_type == EventType.WORKER_DONE then
          match e.data with
          | EventData.worker w =>
            let h := handleEvent cfg hfuel s₁ (HandlerCall.workerReady e.timestamp w)
            let rest := runAux cfg hfuel fuel h.1
            (rest.1, h.2 && rest.2)
          | EventData.job _ => (s₁, false)
        else if e.event_type == EventType.WORKER_TO_POOL then
          match e.data with
          | EventData.worker w =>
            runAux cfg hfuel fuel (handleWorkerToPool s₁ w)
          | EventData.job _ => (s₁, false)
        else
          runAux cfg hfuel fuel s₁

/-- The S4 configuration of the spec: tier `H` (capacity 1, priority 1,
startup 0) and tier `C` (capacity 1, priority 2, startup 300); shutdown 0
for both; every job runs 60 seconds. -/
def s4Config : SimConfig :=
  ⟨[⟨"H", 1, 1, 0, 0⟩, ⟨"C", 1, 2, 300, 0⟩], fun _ => 60⟩

/-- The S4 scenario: three jobs submitted at time 0. -/
def s4Jobs : List Job :=
  [Job.init 0 "S" "C" 0, Job.init 1 "S" "C" 0, Job.init 2 "S" "C" 0]

/-- The S4 run of the kernel. -/
def s4Run : SimState × Bool :=
  runAux s4Config 8 32 (initJobsInQueue (SimState.start s4Config) s4Jobs)

/-- A concrete two-tier pool used as witness input for the admission
policy theorems. -/
def c6Pool : WorkerPool :=
  WorkerPool.init [⟨"H", 2, 1, 0, 0⟩, ⟨"C", 1, 2, 300, 0⟩]

/-- C2 failing input: a single cold tier (capacity 1, startup 300) and two
jobs submitted at time 0. -/
def c2Config : SimConfig := ⟨[⟨"C", 1, 1, 300, 0⟩], fun _ => 60⟩

/-- The C2 scenario state after the two `JOB_SUBMITTED` events at time 0
have been handled (two loop iterations). -/
def c2State : SimState × Bool :=
  runAux c2Config 8 2
    (initJobsInQueue (SimState.start c2Config)
      [Job.init 0 "S" "C" 0, Job.init 1 "S" "C" 0])

/-- Whether an event carries a job payload. -/
def isJobEvent (e : Event EventData) : Bool :=
  match e.data with
  | EventData.job _ => true
  | EventData.worker _ => false

/-- Number of queued events carrying a job payload. -/
def jobCount (l : List (Event EventData)) : Nat :=
  (l.filter isJobEvent).length

/-- The conserved job ledger of the kernel: jobs still queued as
`JOB_SUBMITTED` events plus jobs pending plus jobs completed. -/
def jobSum (s : SimState) : Nat :=
  jobCount s.event_queue.events + s.pending_jobs.length +
    s.completed_jobs.length

/-- An event whose dispatch runs `handle_worker_ready` (the run loop
treats `WORKER_DONE` exactly like `WORKER_READY`). -/
def WorkEvent (e : Event EventData) : Prop :=
  e.event_type = EventType.WORKER_READY ∨
    e.event_type = EventType.WORKER_DONE

/-- A `WORKER_DONE` event for the worker with id `wid` is queued. -/
def HasDoneFor (s : SimState) (wid : Nat) : Prop :=
  ∃ e ∈ s.event_queue.events, e.event_type = EventType.WORKER_DONE ∧
    ∃ x, e.data = EventData.worker x ∧ x.worker_id = wid

/-- Data invariant of the kernel state, preserved by every handler and by
the run loop: the pool is structurally well formed and populated, every
`BUSY` worker has an outstanding `WORKER_DONE` event, every worker payload
names a pooled worker id, and only `JOB_SUBMITTED` events carry jobs. -/
def KernelCore (s : SimState) : Prop :=
  PoolWF s.workers_pool ∧
  s.workers_pool.workers ≠ [] ∧
  (∀ w ∈ s.workers_pool.workers, w.worker_status = WorkerStatus.BUSY →
    HasDoneFor s w.worker_id) ∧
  (∀ e ∈ s.event_queue.events, ∀ x, e.data = EventData.worker x →
    ∃ y ∈ s.workers_pool.workers, y.worker_id = x.worker_id) ∧
  (∀ e ∈ s.event_queue.events, isJobEvent e = true →
    e.event_type = EventType.JOB_SUBMITTED)

/-- Progress invariant: while jobs are pending, a worker event is still
queued, so the run loop cannot drain the queue with jobs left behind. -/
def PendingLive (s : SimState) : Prop :=
  s.pending_jobs ≠ [] → ∃ e ∈ s.event_queue.events, WorkEvent e

/-- The busy-worker obligation a handler call may ignore: the worker a
`handle_worker_ready` call is about is set `READY` before anything else
runs, so its own `WORKER_DONE` (just popped) need not still be queued. -/
def callExcludes (c : HandlerCall) (wid : Nat) : Prop :=
  match c with
  | HandlerCall.jobSubmitted _ _ => True
  | HandlerCall.workerReady _ w => w.worker_id ≠ wid

/-- How many jobs a handler call carries in hand (a `handle_job_submitted`
call owns the job it is placing; `handle_worker_ready` owns none). -/
def callJobs (c : HandlerCall) : Nat :=
  match c with
  | HandlerCall.jobSubmitted _ _ => 1
  | HandlerCall.workerReady _ _ => 0

/-- The simulated time a handler call runs at. -/
def callTime (c : HandlerCall) : Int :=
  match c with
  | HandlerCall.jobSubmitted t _ => t
  | HandlerCall.workerReady t _ => t

/-- Temporal invariant of the kernel state: the queue is a well-formed
heap, every completed job started no earlier than its submission and
carries its server fields, every queued job event is stamped with its
job's submission time, and no pending job was submitted after any queued
event's timestamp. -/
def SimTimeInv (s : SimState) : Prop :=
  IsHeap s.event_queue.events ∧
  (∀ j ∈ s.completed_jobs, j.submission_time ≤ j.start_execution_time ∧
    j.server_type.isSome = true ∧ j.server_id.isSome = true) ∧
  (∀ e ∈ s.event_queue.events, ∀ j, e.data = EventData.job j →
    e.timestamp = j.submission_time) ∧
  (∀ j ∈ s.pending_jobs, ∀ e ∈ s.event_queue.events,
    j.submission_time ≤ e.timestamp)

/-- The slice of `sim_config.CONFIG` that `jobgen.py` reads: the user and
job type cycles (`get_num_jobs` is only used to bound the `randint` draw,
which the oracle stream below supplies directly). -/
structure GenConfig where
  user_types : List String
  job_types : List String

/-- `JobGenerator.__init__`. -/
structure JobGenerator where
  user_type_index : Nat
  job_type_index : Nat
  job_id : Nat
  jobs : List Job

def JobGenerator.init : JobGenerator := ⟨0, 0, 0, []⟩

/-- Python `l[i % len(l)]`.  The `none` branch models the
`ZeroDivisionError` an empty type list would raise, which no configured
run reaches. -/
def listCycle (l : List String) (i : Nat) : String :=
  match l[i % l.length]? with
  | some s => s
  | none => ""

/-- `JobGenerator.generate_job`. -/
def generate_job (cfg : GenConfig) (g : JobGenerator)
    (user_request_time : Int) (user_type : String) :
    JobGenerator × Job :=
  let job_type := listCycle cfg.job_types g.job_type_index
  let job := Job.init g.job_id job_type user_type user_request_time
  ({ g with
      job_type_index := g.job_type_index + 1,
      job_id := g.job_id + 1 }, job)

/-- The `for _ in range(num_jobs)` append loop of `handle_user_request`. -/
def appendJobs (cfg : GenConfig) :
    Nat → JobGenerator → Int → String → JobGenerator
  | 0, g, _, _ => g
  | n + 1, g, t, ut =>
    let r := generate_job cfg g t ut
    appendJobs cfg n { r.1 with jobs := r.1.jobs ++ [r.2] } t ut

/-- `JobGenerator.handle_user_request`; `numDraw` is the value drawn by
`random.randint(1, CONFIG.get_num_jobs(user_type))`. -/
def handle_user_request (cfg : GenConfig) (g : JobGenerator)
    (numDraw : Nat) (user_request_time : Int) : JobGenerator :=
  let user_type := listCycle cfg.user_types g.user_type_index
  let g₁ := { g with user_type_index := g.user_type_index + 1 }
  appendJobs cfg numDraw g₁ user_request_time user_type

/-- The `while time < end_time` loop of `JobGenerator.generate_jobs`.
`gaps k` is the `int(random.expovariate(...))` value of the k-th
`generate_interarrival_time()` call (non-negative, hence `Nat`), `nums k`
the k-th `randint` draw; the flag is `false` iff the fuel ran out before
the loop exited. -/
def generate_jobsAux (cfg : GenConfig) (gaps nums : Nat → Nat) :
    Nat → Nat → JobGenerator → Int → Int → JobGenerator × Bool
  | 0, _, g, _, _ => (g, false)
  | fuel + 1, k, g, time, end_time =>
    if time < end_time then
      let urt := time + (gaps k : Int)
      generate_jobsAux cfg gaps nums fuel (k + 1)
        (handle_user_request cfg g (nums k) urt) urt end_time
    else (g, true)

/-- `JobGenerator.generate_jobs(start_time, end_time)` on a fresh
generator, as called by both `main` functions. -/
def generate_jobs (cfg : GenConfig) (gaps nums : Nat → Nat) (fuel : Nat)
    (start_time end_time : Int) : List Job × Bool :=
  let r := generate_jobsAux cfg gaps nums fuel 0 JobGenerator.init
    start_time end_time
  (r.1.jobs, r.2)

/-- C4 counterexample run: window `[0, 10)`, first inter-arrival gap 50
(drawable, e.g. `expovariate` returning 50.3), one job per request. -/
def c4Run : List Job × Bool :=
  generate_jobs ⟨["U"], ["S"]⟩ (fun _ => 50) (fun _ => 1) 4 0 10

/-- The first statement of `print_statistics` that touches the data:
`simlated_time = max(j.get_start_execution_time() for j in
self.completed_jobs)` (the misspelling is the source's).  Python `max`
raises `ValueError` on an empty sequence; the error branch models that
exception, and the fold is Python `max` (keep the current value on
ties). -/
def simlated_time (s : SimState) : Except String Int :=
  match s.completed_jobs.map (fun j => j.start_execution_time) with
  | [] => Except.error "max() arg is an empty sequence"
  | x :: xs => Except.ok (xs.foldl (fun a b => if a < b then b else a) x)

/-- Python `min(data)` on integers (first minimum wins; the `[]` branch
models the `ValueError` on empty data). -/
def listMin (data : List Int) : Int :=
  match data with
  | [] => 0
  | x :: xs => xs.foldl (fun a b => if b < a then b else a) x

/-- Python `max(data)` on integers. -/
def listMax (data : List Int) : Int :=
  match data with
  | [] => 0
  | x :: xs => xs.foldl (fun a b => if a < b then b else a) x

/-- Python `int(q)` on a float value: truncation toward zero (the float
is carried as the exact rational it denotes). -/
def pyTrunc (q : ℚ) : Int :=
  if q < 0 then -(Int.floor (-q)) else Int.floor q

/-- Fuel-based `⌊log2 n⌋` for positive `n` (fuel `n` always suffices). -/
def log2F : Nat → Nat → Nat
  | 0, _ => 0
  | fuel + 1, n => if n ≤ 1 then 0 else log2F fuel (n / 2) + 1

/-- `⌊log2 q⌋` of a positive rational. -/
def floorLog2 (q : ℚ) : Int :=
  let a := q.num.toNat
  let b := q.den
  let e0 : Int := (log2F a a : Int) - (log2F b b : Int)
  if (if 0 ≤ e0 then b * 2 ^ e0.toNat ≤ a else b ≤ a * 2 ^ (-e0).toNat)
    then e0 else e0 - 1

/-- `q * 2 ^ k` for an integer exponent. -/
def mulPow2 (q : ℚ) (k : Int) : ℚ :=
  if 0 ≤ k then q * ((2 : ℚ) ^ k.toNat) else q / ((2 : ℚ) ^ (-k).toNat)

/-- The IEEE-754 binary64 value nearest to an exact rational (53-bit
significand, round to nearest, ties to even), as the rational it
denotes.  The exponent range is left unbounded: every float this program
produces lies far inside the normal double range, where this is exactly
CPython's semantics (`int.__truediv__` and float addition are correctly
rounded). -/
def roundFloat (q : ℚ) : ℚ :=
  if q = 0 then 0
  else
    let sgn : ℚ := if q < 0 then -1 else 1
    let m := if q < 0 then -q else q
    let e := floorLog2 m
    let s := mulPow2 m (52 - e)
    let n := Int.floor s
    let n2 := if 1 < (s - (n : ℚ)) * 2 then n + 1
      else if (s - (n : ℚ)) * 2 < 1 then n
      else if n % 2 = 0 then n else n + 1
    sgn * mulPow2 (n2 : ℚ) (e - 52)

/-- Python `a / b` on two ints: the correctly rounded binary64 quotient
(CPython `long_true_divide`). -/
def floatDiv (a b : Int) : ℚ :=
  roundFloat ((a : ℚ) / (b : ℚ))

/-- `idx = int((val - self.min_val) / self.bin_width)`: int subtraction
is exact, the division is a correctly rounded float division, `int()`
truncates. -/
def binIdx (min_val bin_width val : Int) : Int :=
  pyTrunc (floatDiv (val - min_val) bin_width)

/-- `SimHistogramBin` (the print-only scale factor and the stacked
per-type counts are omitted). -/
structure SimHistogramBin where
  min_val : Int
  max_val : Int
  total_count : Nat
deriving Repr, DecidableEq

/-- The bin list comprehension of `SimHistogram.__init__`. -/
def initBins (min_val bin_width : Int) (bin_count : Nat) :
    List SimHistogramBin :=
  (List.range bin_count).map (fun (i : Nat) =>
    ⟨min_val + (i : Int) * bin_width,
      min_val + ((i : Int) + 1) * bin_width - 1, 0⟩)

/-- The `for val in data` counting loop of `SimHistogram.__init__`.  The
error branch models the `IndexError` of `self.bins[idx]` when `idx` is
out of range (a negative in-range index would wrap in Python; the safety
theorem shows indices are never negative, so both branches of that
distinction are unreachable). -/
def histAddPoints (min_val bin_width : Int) :
    List Int → List SimHistogramBin →
    Except String (List SimHistogramBin)
  | [], bins => Except.ok bins
  | v :: vs, bins =>
    let idx := binIdx min_val bin_width v
    if 0 ≤ idx ∧ idx.toNat < bins.length then
      let b := bins.getD idx.toNat ⟨0, 0, 0⟩
      histAddPoints min_val bin_width vs
        (bins.set idx.toNat { b with total_count := b.total_count + 1 })
    else Except.error "IndexError"

instance {ε α : Type} [DecidableEq ε] [DecidableEq α] :
    DecidableEq (Except ε α) := fun a b =>
  match a, b with
  | Except.ok x, Except.ok y =>
    if h : x = y then isTrue (h ▸ rfl)
    else isFalse (fun hh => h (Except.ok.inj hh))
  | Except.error e₁, Except.error e₂ =>
    if h : e₁ = e₂ then isTrue (h ▸ rfl)
    else isFalse (fun hh => h (Except.error.inj hh))
  | Except.ok _, Except.error _ => isFalse (fun hh => Except.noConfusion hh)
  | Except.error _, Except.ok _ => isFalse (fun hh => Except.noConfusion hh)

/-- `SimHistogram` (the fields `__init__` stores). -/
structure SimHistogram where
  min_val : Int
  max_val : Int
  data_points_count : Nat
  bin_width : Int
  bins : List SimHistogramBin
deriving Repr, DecidableEq

/-- `SimHistogram.__init__(data, bin_count)`:
`self.bin_width = int((self.max_val - self.min_val) / bin_count + 1)` —
a correctly rounded float division of two ints, a correctly rounded
float addition of 1.0, and an `int()` truncation — then the counting
loop. -/
def SimHistogram.init (data : List Int) (bin_count : Nat) :
    Except String SimHistogram :=
  let min_val := listMin data
  let max_val := listMax data
  let bin_width := pyTrunc
    (roundFloat (floatDiv (max_val - min_val) (bin_count : Int) + 1))
  match histAddPoints min_val bin_width data
      (initBins min_val bin_width bin_count) with
  | Except.ok bins =>
    Except.ok ⟨min_val, max_val, data.length, bin_width, bins⟩
  | Except.error e => Except.error e

/-- C7 counterexample configuration: no worker tiers at all. -/
def c7Config : SimConfig := ⟨[], fun _ => 60⟩

/-- C7 counterexample run: one job submitted at time 0 into a kernel with
an empty worker pool. -/
def c7Run : SimState × Bool :=
  runAux c7Config 8 4
    (initJobsInQueue (SimState.start c7Config) [Job.init 0 "S" "U" 0])

end JobSim

namespace JobSim

theorem parentIdx_lt {j : Nat} (h : 0 < j) : parentIdx j < j := by
  unfold parentIdx; omega

theorem parentIdx_of_pos {j p : Nat} (h0 : 0 < j) (h : parentIdx j = p) :
    j = 2 * p + 1 ∨ j = 2 * p + 2 := by
  unfold parentIdx at h; omega

theorem parentIdx_two_mul_add_one (p : Nat) : parentIdx (2 * p + 1) = p := by
  unfold parentIdx; omega

theorem parentIdx_two_mul_add_two (p : Nat) : parentIdx (2 * p + 2) = p := by
  unfold parentIdx; omega

theorem getElem?_set_self_of_lt {α : Type} {l : List (Event α)} {i : Nat}
    (a : Event α) (h : i < l.length) : (l.set i a)[i]? = some a := by
  simp [List.getElem?_set_self', List.getElem?_eq_getElem h]

/-- Setting the hole and then filling it with a parent-respecting value
restores the full heap invariant. -/
theorem isHeap_set_hole {α : Type} {l : List (Event α)} {pos : Nat}
    {v : Event α} (hpos : pos < l.length)
    (ha : HeapExcept l pos) (hb : ChildrenGE l pos v)
    (hparent : 0 < pos →
      ∀ x, l[parentIdx pos]? = some x → x.timestamp ≤ v.timestamp) :
    IsHeap (l.set pos v) := by
  intro j hj x y hx hy
  by_cases hjp : j = pos
  · subst hjp
    have hne : parentIdx j ≠ j := Nat.ne_of_lt (parentIdx_lt hj)
    rw [List.getElem?_set_ne (Ne.symm hne)] at hx
    rw [getElem?_set_self_of_lt v hpos] at hy
    obtain rfl := Option.some.inj hy
    exact hparent hj x hx
  · by_cases hpj : parentIdx j = pos
    · rw [hpj, getElem?_set_self_of_lt v hpos] at hx
      obtain rfl := Option.some.inj hx
      rw [List.getElem?_set_ne (fun h => hjp h.symm)] at hy
      exact hb j hj hpj y hy
    · rw [List.getElem?_set_ne (fun h => hpj h.symm)] at hx
      rw [List.getElem?_set_ne (fun h => hjp h.symm)] at hy
      exact ha j hj hjp hpj x y hx hy

/-- Bubble-up correctness: `_siftdown` starting from a hole at `pos`
produces a heap. -/
theorem siftdownAuxF_isHeap {α : Type} :
    ∀ (fuel pos : Nat) (l : List (Event α)) (v : Event α),
      pos ≤ fuel → pos < l.length →
      HeapExcept l pos → ChildrenGE l pos v → GrandLe l pos →
      IsHeap (siftdownAuxF fuel l 0 pos v) := by
  intro fuel
  induction fuel with
  | zero =>
    intro pos l v hfuel hpos ha hb hc
    show IsHeap (l.set pos v)
    exact isHeap_set_hole hpos ha hb (fun hpos0 => absurd hpos0 (by omega))
  | succ fuel ih =>
    intro pos l v hfuel hpos ha hb hc
    simp only [siftdownAuxF]
    by_cases h0 : 0 < pos
    · rw [if_pos h0]
      have hpplt : parentIdx pos < pos := parentIdx_lt h0
      have hpplen : parentIdx pos < l.length := lt_trans hpplt hpos
      have hpp : l[(pos - 1) / 2]? = some (l[(pos - 1) / 2]) :=
        List.getElem?_eq_getElem hpplen
      rw [hpp]
      have hpp' : l[parentIdx pos]? = some (l[(pos - 1) / 2]) := hpp
      generalize hpdef : l[(pos - 1) / 2] = parent at hpp hpp'
      by_cases hlt : eventLt v parent = true
      · simp only [if_pos hlt]
        have hv : v.timestamp < parent.timestamp := by
          simpa [eventLt] using hlt
        apply ih (parentIdx pos) (l.set pos parent) v
        · omega
        · simpa using hpplen
        · -- HeapExcept with the hole moved to the parent slot
          intro j hj hjpp hpjpp x y hx hy
          by_cases hjpos : j = pos
          · exact absurd (by rw [hjpos]) hpjpp
          · by_cases hpjpos : parentIdx j = pos
            · rw [hpjpos, getElem?_set_self_of_lt parent hpos] at hx
              obtain rfl := Option.some.inj hx
              rw [List.getElem?_set_ne (fun h => hjpos h.symm)] at hy
              exact hc h0 j hj hpjpos parent y hpp' hy
            · rw [List.getElem?_set_ne (fun h => hpjpos h.symm)] at hx
              rw [List.getElem?_set_ne (fun h => hjpos h.symm)] at hy
              exact ha j hj hjpos hpjpos x y hx hy
        · -- both children of the new hole are above v
          intro j hj hpj y hy
          by_cases hjpos : j = pos
          · subst hjpos
            rw [getElem?_set_self_of_lt parent hpos] at hy
            obtain rfl := Option.some.inj hy
            exact le_of_lt hv
          · rw [List.getElem?_set_ne (fun h => hjpos h.symm)] at hy
            have hpj_ne : parentIdx j ≠ pos := by
              rw [hpj]; exact Nat.ne_of_lt hpplt
            have hple := ha j hj hjpos hpj_ne parent y (hpj ▸ hpp') hy
            exact le_trans (le_of_lt hv) hple
        · -- the grandparent is below both children of the new hole
          intro hpp0 j hj hpj x y hx hy
          have hgp_lt : parentIdx (parentIdx pos) < parentIdx pos :=
            parentIdx_lt hpp0
          have hgp_ne : parentIdx (parentIdx pos) ≠ pos :=
            Nat.ne_of_lt (lt_trans hgp_lt hpplt)
          rw [List.getElem?_set_ne (fun h => hgp_ne h.symm)] at hx
          have hx_le_parent : x.timestamp ≤ parent.timestamp :=
            ha (parentIdx pos) hpp0 (Nat.ne_of_lt hpplt) hgp_ne x parent hx hpp'
          by_cases hjpos : j = pos
          · subst hjpos
            rw [getElem?_set_self_of_lt parent hpos] at hy
            obtain rfl := Option.some.inj hy
            exact hx_le_parent
          · rw [List.getElem?_set_ne (fun h => hjpos h.symm)] at hy
            have hpj_ne : parentIdx j ≠ pos := by
              rw [hpj]; exact Nat.ne_of_lt hpplt
            have hparent_le := ha j hj hjpos hpj_ne parent y (hpj ▸ hpp') hy
            exact le_trans hx_le_parent hparent_le
      · simp only [if_neg hlt]
        apply isHeap_set_hole hpos ha hb
        intro _ x hx
        have : x = parent := Option.some.inj ((hpp'.symm.trans hx).symm)
        subst this
        simpa [eventLt] using hlt
    · rw [if_neg h0]
      exact isHeap_set_hole hpos ha hb (fun hpos0 => absurd hpos0 h0)

/-- Bubble-up correctness at the wrapper's fuel. -/
theorem siftdownAux_isHeap {α : Type} :
    ∀ (pos : Nat) (l : List (Event α)) (v : Event α),
      pos < l.length → HeapExcept l pos → ChildrenGE l pos v → GrandLe l pos →
      IsHeap (siftdownAux l 0 pos v) := by
  intro pos l v hpos ha hb hc
  exact siftdownAuxF_isHeap pos pos l v (le_refl _) hpos ha hb hc

/-- Moving the chosen child into the hole keeps the two hole invariants,
with the hole now at the child's slot. -/
theorem siftup_step_invariants {α : Type} {l : List (Event α)} {pos c : Nat}
    {child : Event α} (hpos : pos < l.length) (hclen : c < l.length)
    (h0c : 0 < c) (hpc : parentIdx c = pos) (hchildval : l[c]? = some child)
    (hmin : ∀ j, 0 < j → parentIdx j = pos → j ≠ c →
      ∀ y, l[j]? = some y → child.timestamp ≤ y.timestamp)
    (ha : HeapExcept l pos) (hc : GrandLe l pos) :
    HeapExcept (l.set pos child) c ∧ GrandLe (l.set pos child) c := by
  have hposc : pos < c := hpc ▸ parentIdx_lt h0c
  constructor
  · intro j hj hjc hpjc x y hx hy
    by_cases hjpos : j = pos
    · subst hjpos
      have hppne : parentIdx j ≠ j := Nat.ne_of_lt (parentIdx_lt hj)
      rw [List.getElem?_set_ne (Ne.symm hppne)] at hx
      rw [getElem?_set_self_of_lt child hpos] at hy
      obtain rfl := Option.some.inj hy
      exact hc hj c h0c hpc x child hx hchildval
    · by_cases hpjpos : parentIdx j = pos
      · rw [hpjpos, getElem?_set_self_of_lt child hpos] at hx
        obtain rfl := Option.some.inj hx
        rw [List.getElem?_set_ne (fun h => hjpos h.symm)] at hy
        exact hmin j hj hpjpos hjc y hy
      · rw [List.getElem?_set_ne (fun h => hpjpos h.symm)] at hx
        rw [List.getElem?_set_ne (fun h => hjpos h.symm)] at hy
        exact ha j hj hjpos hpjpos x y hx hy
  · intro _ j hj hpj x y hx hy
    rw [hpc, getElem?_set_self_of_lt child hpos] at hx
    obtain rfl := Option.some.inj hx
    have hjc : c < j := hpj ▸ parentIdx_lt hj
    have hjpos : j ≠ pos := Nat.ne_of_gt (lt_trans hposc hjc)
    rw [List.getElem?_set_ne (fun h => hjpos h.symm)] at hy
    have hpjpos : parentIdx j ≠ pos := by
      rw [hpj]; exact Nat.ne_of_gt hposc
    exact ha j hj hjpos hpjpos child y (by rw [hpj]; exact hchildval) hy

/-- The leaf step of `_siftup`: once the hole has no child below `endpos`,
writing the carried item and bubbling it up restores the heap. -/
theorem siftup_leaf_isHeap {α : Type} {l : List (Event α)} {pos : Nat}
    {v : Event α} (hpos : pos < l.length) (hleaf : l.length ≤ 2 * pos + 1)
    (ha : HeapExcept l pos) (hc : GrandLe l pos) :
    IsHeap (siftdownAux (l.set pos v) 0 pos v) := by
  apply siftdownAux_isHeap pos (l.set pos v) v
  · rw [List.length_set]; exact hpos
  · intro j hj hjp hpjp x y hx hy
    rw [List.getElem?_set_ne (fun h => hpjp h.symm)] at hx
    rw [List.getElem?_set_ne (fun h => hjp h.symm)] at hy
    exact ha j hj hjp hpjp x y hx hy
  · intro j hj hpj y hy
    have hout : l.length ≤ j := by
      rcases parentIdx_of_pos hj hpj with h | h <;> omega
    rw [List.getElem?_set_ne (by omega : pos ≠ j),
      List.getElem?_eq_none hout] at hy
    cases hy
  · intro h0 j hj hpj x y hx hy
    have hout : l.length ≤ j := by
      rcases parentIdx_of_pos hj hpj with h | h <;> omega
    rw [List.getElem?_set_ne (by omega : pos ≠ j),
      List.getElem?_eq_none hout] at hy
    cases hy

/-- Bubble-down correctness: `_siftup` walking the hole at `pos` down to a
leaf and then bubbling the carried item up restores the heap. -/
theorem siftupAuxF_isHeap {α : Type} :
    ∀ (fuel endpos pos : Nat) (l : List (Event α)) (v : Event α),
      endpos - pos ≤ fuel → endpos = l.length → pos < l.length →
      HeapExcept l pos → GrandLe l pos →
      IsHeap (siftupAuxF fuel l endpos 0 pos v) := by
  intro fuel
  induction fuel with
  | zero =>
    intro endpos pos l v hn hend hpos ha hc
    show IsHeap (siftdownAux (l.set pos v) 0 pos v)
    exact siftup_leaf_isHeap hpos (by omega) ha hc
  | succ fuel ih =>
    intro endpos pos l v hn hend hpos ha hc
    simp only [siftupAuxF]
    by_cases hchild : 2 * pos + 1 < endpos
    · rw [if_pos hchild]
      by_cases hr : 2 * pos + 2 < endpos ∧
          slotLt l (2 * pos + 1) (2 * pos + 2) = false
      · rw [if_pos hr]
        obtain ⟨hr2, hslot⟩ := hr
        have hr2' : 2 * pos + 2 < l.length := hend ▸ hr2
        have hl1 : 2 * pos + 1 < l.length := by omega
        have hcr : l[2 * pos + 2]? = some (l[2 * pos + 2]) :=
          List.getElem?_eq_getElem hr2'
        rw [hcr]
        generalize hcdef : l[2 * pos + 2] = child at hcr
        have hmin : ∀ j, 0 < j → parentIdx j = pos → j ≠ 2 * pos + 2 →
            ∀ y, l[j]? = some y → child.timestamp ≤ y.timestamp := by
          intro j hj hpj hjne y hy
          have : j = 2 * pos + 1 := by
            rcases parentIdx_of_pos hj hpj with h | h
            · exact h
            · exact absurd h hjne
          subst this
          rw [List.getElem?_eq_getElem hl1] at hy
          obtain rfl := Option.some.inj hy
          have := hslot
          unfold slotLt at this
          rw [List.getElem?_eq_getElem hl1, List.getElem?_eq_getElem hr2'] at this
          simp only [eventLt, hcdef] at this
          simp only [decide_eq_false_iff_not, not_lt] at this
          exact this
        obtain ⟨ha', hc'⟩ := siftup_step_invariants hpos hr2' (by omega)
          (parentIdx_two_mul_add_two pos) hcr hmin ha hc
        exact ih endpos (2 * pos + 2) (l.set pos child) v (by omega)
          (by rw [List.length_set]; exact hend) (by rw [List.length_set]; exact hr2')
          ha' hc'
      · rw [if_neg hr]
        have hl1 : 2 * pos + 1 < l.length := hend ▸ hchild
        have hcl : l[2 * pos + 1]? = some (l[2 * pos + 1]) :=
          List.getElem?_eq_getElem hl1
        rw [hcl]
        generalize hcdef : l[2 * pos + 1] = child at hcl
        have hmin : ∀ j, 0 < j → parentIdx j = pos → j ≠ 2 * pos + 1 →
            ∀ y, l[j]? = some y → child.timestamp ≤ y.timestamp := by
          intro j hj hpj hjne y hy
          have hj2 : j = 2 * pos + 2 := by
            rcases parentIdx_of_pos hj hpj with h | h
            · exact absurd h hjne
            · exact h
          subst hj2
          by_cases hin : 2 * pos + 2 < endpos
          · have hslot : slotLt l (2 * pos + 1) (2 * pos + 2) = true := by
              rcases Bool.eq_false_or_eq_true (slotLt l (2 * pos + 1) (2 * pos + 2))
                with htrue | hfalse
              · exact htrue
              · exact absurd ⟨hin, hfalse⟩ hr
            unfold slotLt at hslot
            rw [hcl, hy] at hslot
            simp only [eventLt, decide_eq_true_eq] at hslot
            exact le_of_lt hslot
          · have : l.length ≤ 2 * pos + 2 := by omega
            rw [List.getElem?_eq_none this] at hy
            cases hy
        obtain ⟨ha', hc'⟩ := siftup_step_invariants hpos hl1 (by omega)
          (parentIdx_two_mul_add_one pos) hcl hmin ha hc
        exact ih endpos (2 * pos + 1) (l.set pos child) v (by omega)
          (by rw [List.length_set]; exact hend) (by rw [List.length_set]; exact hl1)
          ha' hc'
    · rw [if_neg hchild]
      exact siftup_leaf_isHeap hpos (by omega) ha hc

/-- Bubble-down correctness at the wrapper's fuel. -/
theorem siftupAux_isHeap {α : Type} :
    ∀ (endpos pos : Nat) (l : List (Event α)) (v : Event α),
      endpos = l.length → pos < l.length →
      HeapExcept l pos → GrandLe l pos →
      IsHeap (siftupAux l endpos 0 pos v) := by
  intro endpos pos l v hend hpos ha hc
  exact siftupAuxF_isHeap endpos endpos pos l v (by omega) hend hpos ha hc

theorem siftdownAuxF_length {α : Type} :
    ∀ (fuel pos : Nat) (l : List (Event α)) (s : Nat) (v : Event α),
      (siftdownAuxF fuel l s pos v).length = l.length := by
  intro fuel
  induction fuel with
  | zero => intro pos l s v; simp [siftdownAuxF]
  | succ fuel ih =>
    intro pos l s v
    simp only [siftdownAuxF]
    by_cases h0 : s < pos
    · rw [if_pos h0]
      cases hp : l[(pos - 1) / 2]? with
      | none => simp
      | some parent =>
        by_cases hlt : eventLt v parent = true
        · simp only [if_pos hlt]
          rw [ih ((pos - 1) / 2) (l.set pos parent) s v]
          simp
        · simp only [if_neg hlt]; simp
    · rw [if_neg h0]; simp

theorem siftdownAux_length {α : Type} :
    ∀ (pos : Nat) (l : List (Event α)) (s : Nat) (v : Event α),
      (siftdownAux l s pos v).length = l.length := by
  intro pos l s v
  exact siftdownAuxF_length pos pos l s v

theorem siftupAuxF_length {α : Type} :
    ∀ (fuel endpos pos : Nat) (l : List (Event α)) (s : Nat) (v : Event α),
      (siftupAuxF fuel l endpos s pos v).length = l.length := by
  intro fuel
  induction fuel with
  | zero =>
    intro endpos pos l s v
    show (siftdownAux (l.set pos v) s pos v).length = l.length
    rw [siftdownAux_length]
    simp
  | succ fuel ih =>
    intro endpos pos l s v
    simp only [siftupAuxF]
    by_cases hc : 2 * pos + 1 < endpos
    · rw [if_pos hc]
      by_cases hr : 2 * pos + 2 < endpos ∧
          slotLt l (2 * pos + 1) (2 * pos + 2) = false
      · rw [if_pos hr]
        cases hcv : l[2 * pos + 2]? with
        | none => rfl
        | some child =>
          rw [ih endpos (2 * pos + 2) (l.set pos child) s v]
          simp
      · rw [if_neg hr]
        cases hcv : l[2 * pos + 1]? with
        | none => rfl
        | some child =>
          rw [ih endpos (2 * pos + 1) (l.set pos child) s v]
          simp
    · rw [if_neg hc]
      show (siftdownAux (l.set pos v) s pos v).length = l.length
      rw [siftdownAux_length]
      simp

theorem siftupAux_length {α : Type} :
    ∀ (endpos pos : Nat) (l : List (Event α)) (s : Nat) (v : Event α),
      (siftupAux l endpos s pos v).length = l.length := by
  intro endpos pos l s v
  exact siftupAuxF_length endpos endpos pos l s v

theorem heappush_length {α : Type} (l : List (Event α)) (x : Event α) :
    (heappush l x).length = l.length + 1 := by
  unfold heappush
  rw [siftdownAux_length]
  simp

/-- `heappush` on a heap yields a heap. -/
theorem isHeap_heappush {α : Type} {l : List (Event α)} (h : IsHeap l)
    (x : Event α) : IsHeap (heappush l x) := by
  unfold heappush
  apply siftdownAux_isHeap
  · simp
  · intro j hj hjp hpjp a b ha hb
    have hjlen : j < l.length + 1 := by
      have := (List.getElem?_eq_some_iff.mp hb).1
      simpa using this
    have hjlt : j < l.length := by
      rcases Nat.lt_or_ge j l.length with h' | h'
      · exact h'
      · exact absurd (by omega : j = l.length) hjp
    have hplt : parentIdx j < l.length := lt_trans (parentIdx_lt hj) hjlt
    rw [List.getElem?_append, if_pos hplt] at ha
    rw [List.getElem?_append, if_pos hjlt] at hb
    exact h j hj a b ha hb
  · intro j hj hpj y hy
    have hout : (l ++ [x]).length ≤ j := by
      rcases parentIdx_of_pos hj hpj with h' | h' <;> simp <;> omega
    rw [List.getElem?_eq_none hout] at hy
    cases hy
  · intro h0 j hj hpj a b ha hb
    have hout : (l ++ [x]).length ≤ j := by
      rcases parentIdx_of_pos hj hpj with h' | h' <;> simp <;> omega
    rw [List.getElem?_eq_none hout] at hb
    cases hb

/-- `heappop` on a non-empty list returns the root slot. -/
theorem heappop_fst {α : Type} {l : List (Event α)} (hne : l ≠ []) :
    (heappop l).1 = l[0]? := by
  unfold heappop
  rw [List.getLast?_eq_getLast l hne]
  cases hdl : l.dropLast with
  | nil =>
    obtain ⟨a, rfl⟩ : ∃ a, l = [a] := by
      cases l with
      | nil => exact absurd rfl hne
      | cons a t =>
        cases t with
        | nil => exact ⟨a, rfl⟩
        | cons b t' => simp [List.dropLast] at hdl
    simp
  | cons r rest' =>
    conv_rhs => rw [← List.dropLast_append_getLast hne, hdl]
    simp

/-- `heappop` preserves the heap invariant. -/
theorem isHeap_heappop {α : Type} {l : List (Event α)} (h : IsHeap l) :
    IsHeap (heappop l).2 := by
  cases hl : l.getLast? with
  | none =>
    unfold heappop
    rw [hl]
    exact h
  | some lastelt =>
    unfold heappop
    rw [hl]
    cases hdl : l.dropLast[0]? with
    | none =>
      intro j hj x y hx hy
      simp at hx
    | some r =>
      have hrlen : 0 < l.dropLast.length := (List.getElem?_eq_some_iff.mp hdl).1
      simp only []
      unfold siftup
      rw [getElem?_set_self_of_lt lastelt hrlen]
      apply siftupAux_isHeap _ 0
      · rfl
      · simpa using hrlen
      · intro j hj hj0 hpj0 x y hx hy
        rw [List.getElem?_set_ne (fun hh => hpj0 hh.symm)] at hx
        rw [List.getElem?_set_ne (fun hh => hj0 hh.symm)] at hy
        rw [List.dropLast_eq_take, List.getElem?_take] at hx hy
        by_cases hxin : parentIdx j < l.length - 1
        · rw [if_pos hxin] at hx
          by_cases hyin : j < l.length - 1
          · rw [if_pos hyin] at hy
            exact h j hj x y hx hy
          · rw [if_neg hyin] at hy; cases hy
        · rw [if_neg hxin] at hx; cases hx
      · intro h00
        exact absurd h00 (by omega)

/-- The root of a heap has the minimum timestamp. -/
theorem isHeap_root_le {α : Type} {l : List (Event α)} (h : IsHeap l) :
    ∀ (j : Nat) (x y : Event α), l[0]? = some x → l[j]? = some y →
      x.timestamp ≤ y.timestamp := by
  intro j
  induction j using Nat.strong_induction_on with
  | _ j ih =>
    intro x y hx hy
    by_cases h0 : j = 0
    · subst h0
      rw [hx] at hy
      obtain rfl := Option.some.inj hy
      exact le_refl _
    · have hj : 0 < j := Nat.pos_of_ne_zero h0
      have hjlen : j < l.length := (List.getElem?_eq_some_iff.mp hy).1
      have hplen : parentIdx j < l.length := lt_trans (parentIdx_lt hj) hjlen
      have hp : l[parentIdx j]? = some (l[parentIdx j]) :=
        List.getElem?_eq_getElem hplen
      exact le_trans (ih (parentIdx j) (parentIdx_lt hj) x _ hx hp)
        (h j hj _ y hp hy)

/-- Length bookkeeping for `heappop`. -/
theorem heappop_snd_length {α : Type} {l : List (Event α)} (hne : l ≠ []) :
    (heappop l).2.length = l.length - 1 := by
  unfold heappop
  rw [List.getLast?_eq_getLast l hne]
  cases hdl : l.dropLast[0]? with
  | none =>
    have h0 : l.dropLast.length = 0 := by
      have := List.getElem?_eq_none_iff.mp hdl
      omega
    rw [List.length_dropLast] at h0
    show ([] : List (Event α)).length = l.length - 1
    simp
    omega
  | some r =>
    simp only []
    unfold siftup
    have hrlen : 0 < l.dropLast.length := (List.getElem?_eq_some_iff.mp hdl).1
    rw [getElem?_set_self_of_lt (l.getLast hne) hrlen]
    rw [siftupAux_length]
    simp

/-- Replacing a populated slot is a permutation step: the old value comes
out in front, the new value goes in. -/
theorem cons_set_perm {α : Type} :
    ∀ (l : List (Event α)) (j : Nat) (b a : Event α),
      l[j]? = some b → List.Perm (b :: l.set j a) (a :: l) := by
  intro l
  induction l with
  | nil => intro j b a h; simp at h
  | cons x t ih =>
    intro j b a h
    cases j with
    | zero =>
      have hxb : x = b := by simpa using h
      rw [← hxb]
      exact List.Perm.swap a x t
    | succ m =>
      have hm : t[m]? = some b := by simpa using h
      show List.Perm (b :: x :: t.set m a) (a :: x :: t)
      exact (List.Perm.swap x b _).trans
        ((List.Perm.cons x (ih m b a hm)).trans (List.Perm.swap a x t))

/-- Writing value `b` from slot `j` into slot `i` and a fresh value `a`
into slot `j` is, up to permutation, just writing `a` into slot `i`. -/
theorem set_set_perm {α : Type} :
    ∀ (l : List (Event α)) (i j : Nat) (b a : Event α),
      i < l.length → i ≠ j → l[j]? = some b →
      List.Perm ((l.set i b).set j a) (l.set i a) := by
  intro l
  induction l with
  | nil => intro i j b a hi; simp at hi
  | cons x t ih =>
    intro i j b a hi hij hj
    cases i with
    | zero =>
      cases j with
      | zero => exact absurd rfl hij
      | succ m =>
        have hm : t[m]? = some b := by simpa using hj
        simpa using cons_set_perm t m b a hm
    | succ n =>
      cases j with
      | zero =>
        have hxb : x = b := by simpa using hj
        have hn : n < t.length := by simpa using hi
        have hv : t[n]? = some (t[n]) := List.getElem?_eq_getElem hn
        rw [hxb]
        show List.Perm (a :: t.set n b) (b :: t.set n a)
        have P1 := cons_set_perm t n (t[n]) a hv
        have P2 := cons_set_perm t n (t[n]) b hv
        have S : List.Perm ((t[n]) :: a :: t.set n b)
            ((t[n]) :: b :: t.set n a) :=
          (List.Perm.swap a (t[n]) _).trans ((List.Perm.cons a P2).trans
            ((List.Perm.swap b a t).trans ((List.Perm.cons b P1.symm).trans
              (List.Perm.swap (t[n]) b _))))
        exact S.cons_inv
      | succ m =>
        have hm : t[m]? = some b := by simpa using hj
        have hn : n < t.length := by simpa using hi
        simpa using List.Perm.cons x (ih n m b a hn (by omega) hm)

/-- `_siftdown` permutes the list exactly as writing the carried item into
the hole would. -/
theorem siftdownAuxF_perm {α : Type} :
    ∀ (fuel pos : Nat) (l : List (Event α)) (s : Nat) (v : Event α),
      pos < l.length →
      List.Perm (siftdownAuxF fuel l s pos v) (l.set pos v) := by
  intro fuel
  induction fuel with
  | zero => intro pos l s v hpos; exact List.Perm.refl _
  | succ fuel ih =>
    intro pos l s v hpos
    simp only [siftdownAuxF]
    by_cases h0 : s < pos
    · rw [if_pos h0]
      cases hp : l[(pos - 1) / 2]? with
      | none => exact List.Perm.refl _
      | some parent =>
        by_cases hlt : eventLt v parent = true
        · simp only [if_pos hlt]
          have hpplt : (pos - 1) / 2 < pos := by omega
          have hrec := ih ((pos - 1) / 2) (l.set pos parent) s v
            (by rw [List.length_set]; exact lt_trans hpplt hpos)
          exact hrec.trans (set_set_perm l pos ((pos - 1) / 2) parent v hpos
            (by omega) hp)
        · simp only [if_neg hlt]; exact List.Perm.refl _
    · rw [if_neg h0]

theorem siftdownAux_perm {α : Type} :
    ∀ (pos : Nat) (l : List (Event α)) (s : Nat) (v : Event α),
      pos < l.length → List.Perm (siftdownAux l s pos v) (l.set pos v) := by
  intro pos l s v hpos
  exact siftdownAuxF_perm pos pos l s v hpos

/-- `_siftup` permutes the list exactly as writing the carried item into
the hole would. -/
theorem siftupAuxF_perm {α : Type} :
    ∀ (fuel endpos pos : Nat) (l : List (Event α)) (s : Nat) (v : Event α),
      endpos ≤ l.length → pos < l.length →
      List.Perm (siftupAuxF fuel l endpos s pos v) (l.set pos v) := by
  intro fuel
  induction fuel with
  | zero =>
    intro endpos pos l s v hend hpos
    show List.Perm (siftdownAux (l.set pos v) s pos v) (l.set pos v)
    have h1 := siftdownAux_perm pos (l.set pos v) s v
      (by rw [List.length_set]; exact hpos)
    rw [List.set_set] at h1
    exact h1
  | succ fuel ih =>
    intro endpos pos l s v hend hpos
    simp only [siftupAuxF]
    by_cases hc : 2 * pos + 1 < endpos
    · rw [if_pos hc]
      by_cases hr : 2 * pos + 2 < endpos ∧
          slotLt l (2 * pos + 1) (2 * pos + 2) = false
      · rw [if_pos hr]
        cases hcv : l[2 * pos + 2]? with
        | none =>
          have := List.getElem?_eq_none_iff.mp hcv
          omega
        | some child =>
          have hclen : 2 * pos + 2 < l.length := by omega
          have hrec := ih endpos (2 * pos + 2) (l.set pos child) s v
            (by rw [List.length_set]; exact hend)
            (by rw [List.length_set]; exact hclen)
          exact hrec.trans (set_set_perm l pos (2 * pos + 2) child v hpos
            (by omega) hcv)
      · rw [if_neg hr]
        cases hcv : l[2 * pos + 1]? with
        | none =>
          have := List.getElem?_eq_none_iff.mp hcv
          omega
        | some child =>
          have hclen : 2 * pos + 1 < l.length := by omega
          have hrec := ih endpos (2 * pos + 1) (l.set pos child) s v
            (by rw [List.length_set]; exact hend)
            (by rw [List.length_set]; exact hclen)
          exact hrec.trans (set_set_perm l pos (2 * pos + 1) child v hpos
            (by omega) hcv)
    · rw [if_neg hc]
      show List.Perm (siftdownAux (l.set pos v) s pos v) (l.set pos v)
      have h1 := siftdownAux_perm pos (l.set pos v) s v
        (by rw [List.length_set]; exact hpos)
      rw [List.set_set] at h1
      exact h1

theorem siftupAux_perm {α : Type} :
    ∀ (endpos pos : Nat) (l : List (Event α)) (s : Nat) (v : Event α),
      endpos ≤ l.length → pos < l.length →
      List.Perm (siftupAux l endpos s pos v) (l.set pos v) := by
  intro endpos pos l s v hend hpos
  exact siftupAuxF_perm endpos endpos pos l s v hend hpos

theorem set_append_length {α : Type} :
    ∀ (l : List (Event α)) (x y : Event α),
      (l ++ [x]).set l.length y = l ++ [y] := by
  intro l
  induction l with
  | nil => intro x y; rfl
  | cons a t ih =>
    intro x y
    show a :: (t ++ [x]).set t.length y = a :: (t ++ [y])
    rw [ih]

/-- `heappush` inserts exactly the pushed element. -/
theorem heappush_perm {α : Type} (l : List (Event α)) (x : Event α) :
    List.Perm (heappush l x) (x :: l) := by
  unfold heappush
  have h1 := siftdownAux_perm l.length (l ++ [x]) 0 x (by simp)
  rw [set_append_length] at h1
  exact h1.trans (List.perm_append_singleton x l)

/-- The list left by `heappop` when the heap does not collapse to empty. -/
theorem heappop_snd_perm {α : Type} {l : List (Event α)} (hne : l ≠ [])
    (hdl : l.dropLast ≠ []) :
    List.Perm (heappop l).2 (l.dropLast.set 0 (l.getLast hne)) := by
  unfold heappop
  rw [List.getLast?_eq_getLast l hne]
  have hrlen : 0 < l.dropLast.length := List.length_pos.mpr hdl
  rw [List.getElem?_eq_getElem hrlen]
  show List.Perm (siftup (l.dropLast.set 0 (l.getLast hne)) 0) _
  unfold siftup
  rw [getElem?_set_self_of_lt _ (by simpa using hrlen)]
  have h1 := siftupAux_perm ((l.dropLast.set 0 (l.getLast hne)).length) 0
    (l.dropLast.set 0 (l.getLast hne)) 0 (l.getLast hne)
    (le_refl _) (by simpa using hrlen)
  rw [List.set_set] at h1
  exact h1

/-- `heappop` removes exactly the element it returns. -/
theorem heappop_perm {α : Type} {l : List (Event α)} (hne : l ≠ [])
    (e : Event α) (he : (heappop l).1 = some e) :
    List.Perm l (e :: (heappop l).2) := by
  by_cases hdl : l.dropLast = []
  · have E : [l.getLast hne] = l := by
      have hE := List.dropLast_append_getLast hne
      rw [hdl] at hE
      simpa using hE
    rw [← E] at he ⊢
    have hev : e = l.getLast hne := by
      have hcomp : (heappop [l.getLast hne]).1 = some (l.getLast hne) := rfl
      rw [hcomp] at he
      exact (Option.some.inj he).symm
    rw [hev]
    have hcomp2 : (heappop [l.getLast hne]).2 = [] := rfl
    rw [hcomp2]
  · have hrlen : 0 < l.dropLast.length := List.length_pos.mpr hdl
    have hfst := heappop_fst hne
    rw [hfst] at he
    have hlen2 : 0 < l.length - 1 := by
      rw [List.length_dropLast] at hrlen; omega
    have he' : l.dropLast[0]? = some e := by
      rw [List.dropLast_eq_take, List.getElem?_take, if_pos hlen2]
      exact he
    have hsnd := heappop_snd_perm hne hdl
    have h1 : List.Perm l (l.getLast hne :: l.dropLast) := by
      conv_lhs => rw [← List.dropLast_append_getLast hne]
      exact List.perm_append_singleton _ _
    have h2 : List.Perm (e :: l.dropLast.set 0 (l.getLast hne))
        (l.getLast hne :: l.dropLast) :=
      cons_set_perm l.dropLast 0 e (l.getLast hne) he'
    exact h1.trans (h2.symm.trans (List.Perm.cons e hsnd.symm))

/-- Every reachable `EventQueue` state is a well-formed heap with an
accurate element counter. -/
theorem reachable_invariant {α : Type} {q : EventQueue α}
    (h : EventQueue.Reachable q) :
    IsHeap q.events ∧ q.event_count = q.events.length := by
  induction h with
  | init =>
    constructor
    · intro j hj x y hx hy; simp [EventQueue.init] at hx
    · rfl
  | push q ts ty d _ ihq =>
    exact ⟨isHeap_heappush ihq.1 _,
      by simp [EventQueue.push, heappush_length, ihq.2]⟩
  | pushEvent q e _ ihq =>
    exact ⟨isHeap_heappush ihq.1 _,
      by simp [EventQueue.pushEvent, heappush_length, ihq.2]⟩
  | pop q _ ihq =>
    by_cases he : q.isEmpty = true
    · have hpop : q.pop = (none, q) := by
        unfold EventQueue.pop
        rw [if_pos he]
      rw [hpop]
      exact ihq
    · have hne : q.events ≠ [] := by
        simpa [EventQueue.isEmpty, List.length_eq_zero] using he
      constructor
      · simp only [EventQueue.pop, if_neg he]
        exact isHeap_heappop ihq.1
      · simp only [EventQueue.pop, if_neg he]
        show q.event_count - 1 = (heappop q.events).2.length
        have hlen := heappop_snd_length hne
        have hpos : 0 < q.events.length := List.length_pos.mpr hne
        have h2 := ihq.2
        omega

/-- C1: counterexample.  Pushing events with timestamps 0, 1, 1, 2 into an
empty `EventQueue`, with payloads 0, 1, 2, 3 recording push order, and
popping four times returns the two timestamp-1 events as payload 2 before
payload 1 — the opposite of their push order.  `Event.__lt__` compares
timestamps only and `heapq` is not stable, so equal-timestamp events are
not popped earliest-pushed first. -/
theorem claim1_counterexample :
    tieExampleQueue.pop.1 = some ⟨0, "e", 0⟩ ∧
    tieExampleQueue.pop.2.pop.1 = some ⟨1, "e", 2⟩ ∧
    tieExampleQueue.pop.2.pop.2.pop.1 = some ⟨1, "e", 1⟩ ∧
    tieExampleQueue.pop.2.pop.2.pop.2.pop.1 = some ⟨2, "e", 3⟩ := by
  decide

/-- C1 (amended): for every `EventQueue` state reachable by pushes and
pops, `pop` returns an event whose timestamp is minimal among all queued
events; the order among equal-timestamp events is heap order, not
insertion order. -/
theorem claim1_pop_min {α : Type} (q : EventQueue α)
    (hq : EventQueue.Reachable q) (e : Event α) (he : (q.pop).1 = some e) :
    ∀ ev ∈ q.events, e.timestamp ≤ ev.timestamp := by
  intro ev hev
  by_cases hemp : q.isEmpty = true
  · have : q.pop = (none, q) := by
      unfold EventQueue.pop
      rw [if_pos hemp]
    rw [this] at he
    cases he
  · have hne : q.events ≠ [] := by
      simpa [EventQueue.isEmpty, List.length_eq_zero] using hemp
    have hfst : (q.pop).1 = q.events[0]? := by
      unfold EventQueue.pop
      rw [if_neg hemp]
      exact heappop_fst hne
    rw [hfst] at he
    obtain ⟨j, hj⟩ := List.mem_iff_getElem?.mp hev
    exact isHeap_root_le (reachable_invariant hq).1 j e ev he hj

/-- Witness for `claim1_pop_min` at a concrete two-push queue: the pop
returns the timestamp-3 event, whose timestamp bounds the queued
timestamp-5 event. -/
theorem claim1_pop_min_witness :
    (((EventQueue.init (α := Nat)).push 5 "a" 0).push 3 "b" 1).pop.1
      = some ⟨3, "b", 1⟩ ∧
    (3 : Int) ≤ (⟨5, "a", 0⟩ : Event Nat).timestamp := by
  refine ⟨by decide, ?_⟩
  have hq : EventQueue.Reachable
      (((EventQueue.init (α := Nat)).push 5 "a" 0).push 3 "b" 1) :=
    EventQueue.Reachable.push _ 3 "b" 1
      (EventQueue.Reachable.push _ 5 "a" 0 EventQueue.Reachable.init)
  exact claim1_pop_min _ hq ⟨3, "b", 1⟩ (by decide) ⟨5, "a", 0⟩ (by decide)

/-- C10: `pop` and `peek` on an empty `EventQueue` return `None` rather
than raising, leave the queue unchanged (hence empty), and `size()` is 0. -/
theorem claim10_empty_pop_peek {α : Type} (q : EventQueue α)
    (hq : EventQueue.Reachable q) (he : q.isEmpty = true) :
    q.pop = (none, q) ∧ q.peek = none ∧ q.size = 0 := by
  refine ⟨?_, ?_, ?_⟩
  · unfold EventQueue.pop
    rw [if_pos he]
  · unfold EventQueue.peek
    rw [if_pos he]
  · have hcount := (reachable_invariant hq).2
    have hlen : q.events.length = 0 := by
      simpa [EventQueue.isEmpty] using he
    unfold EventQueue.size
    omega

/-- Witness for `claim10_empty_pop_peek` at the freshly constructed queue. -/
theorem claim10_empty_pop_peek_witness :
    (EventQueue.init (α := Nat)).pop = (none, EventQueue.init) ∧
    (EventQueue.init (α := Nat)).peek = none ∧
    (EventQueue.init (α := Nat)).size = 0 :=
  claim10_empty_pop_peek _ EventQueue.Reachable.init rfl

/-- C2: the code violates the single-outstanding-activation invariant.
With one cold tier (capacity 1, startup 300) and two jobs submitted at
time 0, after the two `JOB_SUBMITTED` events the queue holds two
`WORKER_READY` events for worker 0, which is still `IN_POOL`:
`invoke_worker` returned the same seat twice before any `READY`
transition, because `acquire_in_pool_worker_prioritized` never changes
the worker's status despite its docstring "Sets status to READY". -/
theorem claim2_double_invoke :
    c2State.1.event_queue.events.map
      (fun e => (e.timestamp, e.event_type)) =
      [(300, "worker_ready"), (300, "worker_ready")] ∧
    (∀ e ∈ c2State.1.event_queue.events,
      e.data = EventData.worker ⟨"C", WorkerStatus.IN_POOL, 0⟩) ∧
    c2State.1.workers_pool.workers =
      [⟨"C", WorkerStatus.IN_POOL, 0⟩] := by
  decide

/-- C3: counterexample.  Running the kernel on the S4 configuration
(tier `H` capacity 1 priority 1 startup 0; tier `C` capacity 1 priority 2
startup 300) with three duration-60 jobs submitted at time 0 does NOT give
job 1 startExecution 300 on `C` and job 2 startExecution 60 on `H`: job 1
completes at 60 on `H` and job 2 at 120 on `H`. -/
theorem claim3_counterexample :
    s4Run.1.completed_jobs.map
      (fun j => (j.id, j.start_execution_time, j.server_type)) ≠
      [(0, 0, some "H"), (1, 300, some "C"), (2, 60, some "H")] ∧
    s4Run.1.completed_jobs.map
      (fun j => (j.id, j.start_execution_time, j.server_type)) =
      [(0, 0, some "H"), (1, 60, some "H"), (2, 120, some "H")] := by
  decide

theorem findSome?_cons_some_elim {α β : Type} {f : α → Option β} {a : α}
    {l : List α} {b : β} (h : List.findSome? f (a :: l) = some b) :
    f a = some b ∨ (f a = none ∧ List.findSome? f l = some b) := by
  rw [List.findSome?_cons] at h
  cases hfa : f a with
  | some c =>
    rw [hfa] at h
    exact Or.inl (by simpa using h)
  | none =>
    rw [hfa] at h
    exact Or.inr ⟨rfl, by simpa using h⟩

/-- `list.find?` returns the match with the smallest worker id when the
list is sorted by id. -/
theorem find?_min_id (q : Worker → Bool) :
    ∀ (ws : List Worker),
      ws.Pairwise (fun a b => a.worker_id < b.worker_id) →
      ∀ w, ws.find? q = some w →
      ∀ w' ∈ ws, q w' = true → w.worker_id ≤ w'.worker_id := by
  intro ws
  induction ws with
  | nil => intro _ w h; simp at h
  | cons a t ih =>
    intro hpw w hf w' hw' hq
    obtain ⟨ha, ht⟩ := List.pairwise_cons.mp hpw
    by_cases hqa : q a = true
    · rw [List.find?_cons_of_pos t hqa] at hf
      obtain rfl := Option.some.inj hf
      rcases List.mem_cons.mp hw' with rfl | hmem
      · exact le_refl _
      · exact le_of_lt (ha w' hmem)
    · rw [List.find?_cons_of_neg t (by simpa using hqa)] at hf
      rcases List.mem_cons.mp hw' with rfl | hmem
      · exact absurd hq hqa
      · exact ih ht w hf w' hmem hq

/-- With duplicate-free keys, membership determines the dict lookup. -/
theorem propsLookup_of_mem :
    ∀ (props : List (String × PoolProperties)),
      (props.map (fun kv => kv.1)).Nodup →
      ∀ kv ∈ props, propsLookup props kv.1 = some kv.2 := by
  intro props
  induction props with
  | nil => intro _ kv h; simp at h
  | cons a t ih =>
    intro hnd kv hkv
    have hmapcons : ((a :: t).map (fun kv => kv.1)) =
        a.1 :: t.map (fun kv => kv.1) := rfl
    rw [hmapcons] at hnd
    have hnd' := List.nodup_cons.mp hnd
    rcases List.mem_cons.mp hkv with rfl | hmem
    · unfold propsLookup
      rw [List.find?_cons_of_pos _ (by simp)]
      rfl
    · have hne : a.1 ≠ kv.1 := by
        intro he
        exact hnd'.1 (he ▸ List.mem_map.mpr ⟨kv, hmem, rfl⟩)
      unfold propsLookup
      rw [List.find?_cons_of_neg _ (by simp [hne])]
      have := ih hnd'.2 kv hmem
      unfold propsLookup at this
      exact this

/-- A successful dict lookup comes from a member entry with that key. -/
theorem propsLookup_inv {props : List (String × PoolProperties)}
    {wt : String} {pp : PoolProperties}
    (h : propsLookup props wt = some pp) :
    ∃ kv ∈ props, kv.1 = wt ∧ kv.2 = pp := by
  unfold propsLookup at h
  cases hf : props.find? (fun kv => kv.1 == wt) with
  | none => rw [hf] at h; cases h
  | some kv =>
    rw [hf] at h
    refine ⟨kv, List.mem_of_find?_eq_some hf, ?_, by simpa using h⟩
    have := List.find?_some hf
    simpa using this

/-- What a successful inner scan returns: an `IN_POOL` worker of a tier
registered at the scanned priority, with the least id within its tier. -/
theorem acquireScanProps_some {ws : List Worker}
    (hpw : ws.Pairwise (fun a b => a.worker_id < b.worker_id)) :
    ∀ (ps : List (String × PoolProperties)) (pr : Int) (w : Worker),
      acquireScanProps ws ps pr = some w →
      w ∈ ws ∧ w.worker_status = WorkerStatus.IN_POOL ∧
      (∃ kv ∈ ps, kv.1 = w.worker_type ∧ kv.2.pool_priority = pr) ∧
      (∀ w' ∈ ws, w'.worker_status = WorkerStatus.IN_POOL →
        w'.worker_type = w.worker_type → w.worker_id ≤ w'.worker_id) := by
  intro ps
  induction ps with
  | nil => intro pr w h; simp [acquireScanProps] at h
  | cons kv ps' ih =>
    intro pr w h
    unfold acquireScanProps at h
    rcases findSome?_cons_some_elim h with hcase | ⟨_, hrec⟩
    · by_cases hpr : kv.2.pool_priority = pr
      · rw [if_pos hpr] at hcase
        have hq := List.find?_some hcase
        simp only [Bool.and_eq_true, beq_iff_eq] at hq
        refine ⟨List.mem_of_find?_eq_some hcase, hq.1,
          ⟨kv, List.mem_cons_self kv ps', hq.2.symm, hpr⟩, ?_⟩
        intro w' hw' hst' hty'
        apply find?_min_id _ ws hpw w hcase w' hw'
        simp [hst', hty', hq.2]
      · rw [if_neg hpr] at hcase
        cases hcase
    · obtain ⟨hmem, hst, ⟨kv', hkv', hty', hpr'⟩, hmin⟩ := ih pr w hrec
      exact ⟨hmem, hst, ⟨kv', List.mem_cons_of_mem kv hkv', hty', hpr'⟩, hmin⟩

/-- When the inner scan fails, no tier registered at that priority has an
`IN_POOL` worker. -/
theorem acquireScanProps_none {ws : List Worker}
    {ps : List (String × PoolProperties)} {pr : Int}
    (h : acquireScanProps ws ps pr = none) :
    ∀ kv ∈ ps, kv.2.pool_priority = pr →
      ∀ w' ∈ ws, w'.worker_status = WorkerStatus.IN_POOL →
        w'.worker_type = kv.1 → False := by
  intro kv hkv hpr w' hw' hst hty
  unfold acquireScanProps at h
  have hone := List.findSome?_eq_none_iff.mp h kv hkv
  rw [if_pos hpr] at hone
  have := List.find?_eq_none.mp hone w' hw'
  apply this
  simp [hst, hty]

/-- Full specification of the sorted priority scan of
`acquire_in_pool_worker_prioritized`. -/
theorem prioScan_spec (ws : List Worker)
    (ps : List (String × PoolProperties))
    (hpw : ws.Pairwise (fun a b => a.worker_id < b.worker_id))
    (hnd : (ps.map (fun kv => kv.1)).Nodup) :
    ∀ (prs : List Int), prs.Pairwise (fun a b => a ≤ b) →
      (∀ w, prs.findSome? (acquireScanProps ws ps) = some w →
        w ∈ ws ∧ w.worker_status = WorkerStatus.IN_POOL ∧
        (∃ pp, propsLookup ps w.worker_type = some pp ∧
          pp.pool_priority ∈ prs ∧
          (∀ w' ∈ ws, w'.worker_status = WorkerStatus.IN_POOL →
            ∀ pp', propsLookup ps w'.worker_type = some pp' →
              pp'.pool_priority ∈ prs →
              pp.pool_priority ≤ pp'.pool_priority)) ∧
        (∀ w' ∈ ws, w'.worker_status = WorkerStatus.IN_POOL →
          w'.worker_type = w.worker_type → w.worker_id ≤ w'.worker_id)) ∧
      (prs.findSome? (acquireScanProps ws ps) = none →
        ∀ w' ∈ ws, w'.worker_status = WorkerStatus.IN_POOL →
          ∀ pp', propsLookup ps w'.worker_type = some pp' →
            pp'.pool_priority ∉ prs) := by
  intro prs
  induction prs with
  | nil =>
    intro _
    constructor
    · intro w h; simp at h
    · intro _ w' _ _ pp' _; simp
  | cons pr rest ih =>
    intro hsorted
    obtain ⟨hhead, hrest⟩ := List.pairwise_cons.mp hsorted
    obtain ⟨ihs, ihn⟩ := ih hrest
    constructor
    · intro w h
      rcases findSome?_cons_some_elim h with hcase | ⟨hnone, hrec⟩
      · obtain ⟨hmem, hst, ⟨kv, hkv, hty, hprio⟩, hmin⟩ :=
          acquireScanProps_some hpw ps pr w hcase
        have hlook : propsLookup ps w.worker_type = some kv.2 :=
          hty ▸ propsLookup_of_mem ps hnd kv hkv
        refine ⟨hmem, hst, ⟨kv.2, hlook,
          by rw [hprio]; exact List.mem_cons_self pr rest, ?_⟩, hmin⟩
        intro w' _ _ pp' _ hmem'
        rw [hprio]
        rcases List.mem_cons.mp hmem' with he | hm
        · rw [he]
        · exact hhead _ hm
      · obtain ⟨hmem, hst, ⟨pp, hlook, hpmem, hminp⟩, hminid⟩ := ihs w hrec
        refine ⟨hmem, hst, ⟨pp, hlook, List.mem_cons_of_mem _ hpmem, ?_⟩,
          hminid⟩
        intro w' hw' hst' pp' hlook' hmem'
        rcases List.mem_cons.mp hmem' with he | hm
        · exfalso
          obtain ⟨kv', hkv'mem, hkey, hval⟩ := propsLookup_inv hlook'
          exact acquireScanProps_none hnone kv' hkv'mem
            (by rw [hval]; exact he) w' hw' hst' hkey.symm
        · exact hminp w' hw' hst' pp' hlook' hm
    · intro h w' hw' hst' pp' hlook'
      have hall := List.findSome?_eq_none_iff.mp h
      intro hmem'
      rcases List.mem_cons.mp hmem' with he | hm
      · obtain ⟨kv', hkv'mem, hkey, hval⟩ := propsLookup_inv hlook'
        exact acquireScanProps_none (hall pr (List.mem_cons_self pr rest))
          kv' hkv'mem (by rw [hval]; exact he) w' hw' hst' hkey.symm
      · exact ihn (List.findSome?_eq_none_iff.mpr
          (fun x hx => hall x (List.mem_cons_of_mem pr hx)))
          w' hw' hst' pp' hlook' hm

/-- C6: on every structurally well-formed pool state, `invoke_worker`
returns an `IN_POOL` worker whose tier priority is minimal among the
tiers of all `IN_POOL` workers and whose id is minimal among `IN_POOL`
workers of its own tier, and it returns `None` exactly when no worker in
any tier has status `IN_POOL`. -/
theorem claim6_invoke_worker (p : WorkerPool) (hwf : PoolWF p) :
    (invoke_worker p = none ↔
      ∀ w ∈ p.workers, w.worker_status ≠ WorkerStatus.IN_POOL) ∧
    (∀ w, invoke_worker p = some w →
      w ∈ p.workers ∧ w.worker_status = WorkerStatus.IN_POOL ∧
      (∀ w' ∈ p.workers, w'.worker_status = WorkerStatus.IN_POOL →
        tierPriority p w ≤ tierPriority p w') ∧
      (∀ w' ∈ p.workers, w'.worker_status = WorkerStatus.IN_POOL →
        w'.worker_type = w.worker_type → w.worker_id ≤ w'.worker_id)) := by
  obtain ⟨hw1, hw2, hw3, hw4, hw5⟩ := hwf
  obtain ⟨hspec, hnone⟩ :=
    prioScan_spec p.workers p.pool_props hw4 hw5 p.pool_priorities hw3
  constructor
  · constructor
    · intro h w hw hst
      obtain ⟨pp, hpp⟩ := Option.isSome_iff_exists.mp (hw1 w hw)
      have hnot := hnone h w hw hst pp hpp
      obtain ⟨kv, hkvmem, hkey, hval⟩ := propsLookup_inv hpp
      exact hnot (hval ▸ hw2 kv hkvmem)
    · intro hno
      unfold invoke_worker acquireInPoolPrioritized
      apply List.findSome?_eq_none_iff.mpr
      intro pr _
      unfold acquireScanProps
      apply List.findSome?_eq_none_iff.mpr
      intro kv _
      by_cases hpr : kv.2.pool_priority = pr
      · rw [if_pos hpr]
        unfold inPoolOfType
        apply List.find?_eq_none.mpr
        intro x hx
        simp only [Bool.and_eq_true, beq_iff_eq, not_and]
        intro hst
        exact absurd hst (hno x hx)
      · rw [if_neg hpr]
  · intro w h
    obtain ⟨hmem, hst, ⟨pp, hlook, _, hminp⟩, hminid⟩ := hspec w h
    refine ⟨hmem, hst, ?_, hminid⟩
    intro w' hw' hst'
    obtain ⟨pp', hpp'⟩ := Option.isSome_iff_exists.mp (hw1 w' hw')
    have hmem' : pp'.pool_priority ∈ p.pool_priorities := by
      obtain ⟨kv', hkv'mem, _, hval'⟩ := propsLookup_inv hpp'
      exact hval' ▸ hw2 kv' hkv'mem
    have := hminp w' hw' hst' pp' hpp' hmem'
    unfold tierPriority
    rw [hlook, hpp']
    exact this

/-- Witness for `claim6_invoke_worker` on the concrete two-tier pool. -/
theorem claim6_invoke_worker_witness :
    (invoke_worker c6Pool = none ↔
      ∀ w ∈ c6Pool.workers, w.worker_status ≠ WorkerStatus.IN_POOL) ∧
    (∀ w, invoke_worker c6Pool = some w →
      w ∈ c6Pool.workers ∧ w.worker_status = WorkerStatus.IN_POOL ∧
      (∀ w' ∈ c6Pool.workers, w'.worker_status = WorkerStatus.IN_POOL →
        tierPriority c6Pool w ≤ tierPriority c6Pool w') ∧
      (∀ w' ∈ c6Pool.workers, w'.worker_status = WorkerStatus.IN_POOL →
        w'.worker_type = w.worker_type → w.worker_id ≤ w'.worker_id)) :=
  claim6_invoke_worker c6Pool (by decide)

theorem dictInsert_mem {d : List (String × PoolProperties)} {k : String}
    {v : PoolProperties} :
    ∀ kv ∈ dictInsert d k v, kv ∈ d ∨ kv = (k, v) := by
  induction d with
  | nil => intro kv h; simpa [dictInsert] using h
  | cons a t ih =>
    intro kv h
    unfold dictInsert at h
    by_cases hk : a.1 = k
    · rw [if_pos hk] at h
      rcases List.mem_cons.mp h with rfl | hm
      · right; rw [hk]
      · exact Or.inl (List.mem_cons_of_mem a hm)
    · rw [if_neg hk] at h
      rcases List.mem_cons.mp h with rfl | hm
      · exact Or.inl (List.mem_cons_self _ _)
      · rcases ih kv hm with h1 | h2
        · exact Or.inl (List.mem_cons_of_mem a h1)
        · exact Or.inr h2

theorem dictInsert_key_mem {d : List (String × PoolProperties)} {k : String}
    {v : PoolProperties} :
    ∀ x ∈ (dictInsert d k v).map (fun kv => kv.1),
      x ∈ d.map (fun kv => kv.1) ∨ x = k := by
  intro x hx
  obtain ⟨kv, hkv, rfl⟩ := List.mem_map.mp hx
  rcases dictInsert_mem kv hkv with h1 | h2
  · exact Or.inl (List.mem_map.mpr ⟨kv, h1, rfl⟩)
  · rw [h2]
    exact Or.inr rfl

theorem dictInsert_keys_nodup {k : String} {v : PoolProperties} :
    ∀ {d : List (String × PoolProperties)},
      (d.map (fun kv => kv.1)).Nodup →
      ((dictInsert d k v).map (fun kv => kv.1)).Nodup := by
  intro d
  induction d with
  | nil => intro _; simp [dictInsert]
  | cons a t ih =>
    intro hnd
    have hmapcons : ((a :: t).map (fun kv => kv.1)) =
        a.1 :: t.map (fun kv => kv.1) := rfl
    rw [hmapcons] at hnd
    obtain ⟨hnotin, hnd'⟩ := List.nodup_cons.mp hnd
    unfold dictInsert
    by_cases hk : a.1 = k
    · rw [if_pos hk]
      show (a.1 :: t.map (fun kv => kv.1)).Nodup
      exact List.nodup_cons.mpr ⟨hnotin, hnd'⟩
    · rw [if_neg hk]
      show (a.1 :: (dictInsert t k v).map (fun kv => kv.1)).Nodup
      refine List.nodup_cons.mpr ⟨?_, ih hnd'⟩
      intro hmem
      rcases dictInsert_key_mem a.1 hmem with h1 | h2
      · exact hnotin h1
      · exact hk h2

theorem buildProps_foldl_mem (mk : WorkerDefinition → PoolProperties) :
    ∀ (defs : List WorkerDefinition) (acc : List (String × PoolProperties)),
      ∀ kv ∈ defs.foldl
        (fun d wd => dictInsert d wd.worker_type (mk wd)) acc,
        kv ∈ acc ∨ ∃ wd ∈ defs, kv = (wd.worker_type, mk wd) := by
  intro defs
  induction defs with
  | nil => intro acc kv h; exact Or.inl h
  | cons wd rest ih =>
    intro acc kv h
    rcases ih (dictInsert acc wd.worker_type (mk wd)) kv h with h1 | h2
    · rcases dictInsert_mem kv h1 with ha | hb
      · exact Or.inl ha
      · exact Or.inr ⟨wd, List.mem_cons_self wd rest, hb⟩
    · obtain ⟨wd', hwd', he⟩ := h2
      exact Or.inr ⟨wd', List.mem_cons_of_mem wd hwd', he⟩

theorem buildProps_foldl_nodup (mk : WorkerDefinition → PoolProperties) :
    ∀ (defs : List WorkerDefinition) (acc : List (String × PoolProperties)),
      (acc.map (fun kv => kv.1)).Nodup →
      ((defs.foldl (fun d wd => dictInsert d wd.worker_type (mk wd))
        acc).map (fun kv => kv.1)).Nodup := by
  intro defs
  induction defs with
  | nil => intro acc h; exact h
  | cons wd rest ih =>
    intro acc h
    exact ih (dictInsert acc wd.worker_type (mk wd)) (dictInsert_keys_nodup h)

theorem buildWorkersAux_mem :
    ∀ (ps : List (String × PoolProperties)) (idx : Nat),
      ∀ w ∈ buildWorkersAux ps idx,
        (∃ kv ∈ ps, w.worker_type = kv.1) ∧
        w.worker_status = WorkerStatus.IN_POOL ∧ idx ≤ w.worker_id := by
  intro ps
  induction ps with
  | nil => intro idx w h; simp [buildWorkersAux] at h
  | cons kv rest ih =>
    intro idx w h
    unfold buildWorkersAux at h
    rcases List.mem_append.mp h with hblock | hrest
    · obtain ⟨k, hk, rfl⟩ := List.mem_map.mp hblock
      exact ⟨⟨kv, List.mem_cons_self kv rest, rfl⟩, rfl, Nat.le_add_right _ _⟩
    · obtain ⟨⟨kv', hkv', hty⟩, hst, hid⟩ := ih (idx + kv.2.pool_size) w hrest
      exact ⟨⟨kv', List.mem_cons_of_mem kv hkv', hty⟩, hst, by omega⟩

theorem buildWorkersAux_pairwise :
    ∀ (ps : List (String × PoolProperties)) (idx : Nat),
      (buildWorkersAux ps idx).Pairwise
        (fun a b => a.worker_id < b.worker_id) := by
  intro ps
  induction ps with
  | nil => intro idx; simp [buildWorkersAux]
  | cons kv rest ih =>
    intro idx
    unfold buildWorkersAux
    apply List.pairwise_append.mpr
    refine ⟨?_, ih (idx + kv.2.pool_size), ?_⟩
    · apply List.pairwise_map.mpr
      apply (List.pairwise_lt_range kv.2.pool_size).imp
      intro a b h
      show idx + a < idx + b
      omega
    · intro a ha b hb
      obtain ⟨k, hk, rfl⟩ := List.mem_map.mp ha
      have hkr := List.mem_range.mp hk
      have := (buildWorkersAux_mem rest (idx + kv.2.pool_size) b hb).2.2
      show idx + k < b.worker_id
      omega

/-- Every pool constructed by `WorkerPool.__init__` is structurally
well-formed. -/
theorem poolWF_init (defs : List WorkerDefinition) :
    PoolWF (WorkerPool.init defs) := by
  refine ⟨?_, ?_, ?_, ?_, ?_⟩
  · intro w hw
    obtain ⟨⟨kv, hkv, hty⟩, _, _⟩ :=
      buildWorkersAux_mem (buildProps defs) 0 w hw
    show (propsLookup (buildProps defs) w.worker_type).isSome = true
    unfold propsLookup
    rw [Option.isSome_map']
    exact List.find?_isSome.mpr ⟨kv, hkv, by simp [hty]⟩
  · intro kv hkv
    have hkv' : kv ∈ defs.foldl (fun d wd => dictInsert d wd.worker_type
        ⟨wd.pool_size, wd.pool_priority, wd.worker_startup_time,
          wd.worker_shutdown_time⟩) [] := hkv
    rcases buildProps_foldl_mem _ defs [] kv hkv' with h1 | h2
    · simp at h1
    · obtain ⟨wd, hwd, rfl⟩ := h2
      show wd.pool_priority ∈ sortedPriorities defs
      unfold sortedPriorities
      exact ((List.perm_insertionSort _ _).mem_iff).mpr
        (List.mem_map.mpr ⟨wd, hwd, rfl⟩)
  · exact List.sorted_insertionSort (r := fun a b : Int => a ≤ b) _
  · exact buildWorkersAux_pairwise (buildProps defs) 0
  · have : (([] : List (String × PoolProperties)).map
        (fun kv => kv.1)).Nodup := by simp
    exact buildProps_foldl_nodup _ defs [] this

/-- C3 (amended): the S4 run completes (queue drained, no fuel
exhaustion) with job 0 started at 0, job 1 at 60 and job 2 at 120, all
three on tier `H` worker 0; tier `C` never serves a job, because the
pending queue is strict FIFO and worker `H` frees at 60 and 120 before
`C`'s activation completes at 300. -/
theorem claim3_actual :
    s4Run.2 = true ∧
    s4Run.1.completed_jobs.map
      (fun j => (j.id, j.start_execution_time, j.server_type, j.server_id)) =
      [(0, 0, some "H", some 0), (1, 60, some "H", some 0),
        (2, 120, some "H", some 0)] ∧
    s4Run.1.pending_jobs = [] := by
  decide

theorem findSome?_some_exists {α β : Type} {f : α → Option β} :
    ∀ {l : List α} {b : β}, List.findSome? f l = some b →
      ∃ a ∈ l, f a = some b := by
  intro l
  induction l with
  | nil => intro b h; simp at h
  | cons a t ih =>
    intro b h
    rcases findSome?_cons_some_elim h with hcase | ⟨_, hrec⟩
    · exact ⟨a, List.mem_cons_self a t, hcase⟩
    · obtain ⟨a', ha', hfa'⟩ := ih hrec
      exact ⟨a', List.mem_cons_of_mem a ha', hfa'⟩

/-- A worker returned by `invoke_worker` is a pooled `IN_POOL` worker. -/
theorem invoke_some_mem {p : WorkerPool} {w : Worker}
    (h : invoke_worker p = some w) :
    w ∈ p.workers ∧ w.worker_status = WorkerStatus.IN_POOL := by
  unfold invoke_worker acquireInPoolPrioritized at h
  obtain ⟨pr, _, hscan⟩ := findSome?_some_exists h
  unfold acquireScanProps at hscan
  obtain ⟨kv, _, hkv⟩ := findSome?_some_exists hscan
  by_cases hpr : kv.2.pool_priority = pr
  · rw [if_pos hpr] at hkv
    have hq := List.find?_some hkv
    simp only [Bool.and_eq_true, beq_iff_eq] at hq
    exact ⟨List.mem_of_find?_eq_some hkv, hq.1⟩
  · rw [if_neg hpr] at hkv
    cases hkv

/-- On a structurally well-formed pool, a failed `invoke_worker` means no
worker at all is `IN_POOL`. -/
theorem invoke_none_no_inpool {p : WorkerPool} (hwf : PoolWF p)
    (h : invoke_worker p = none) :
    ∀ w ∈ p.workers, w.worker_status ≠ WorkerStatus.IN_POOL := by
  obtain ⟨hw1, hw2, hw3, hw4, hw5⟩ := hwf
  obtain ⟨_, hnone⟩ :=
    prioScan_spec p.workers p.pool_props hw4 hw5 p.pool_priorities hw3
  intro w hw hst
  obtain ⟨pp, hpp⟩ := Option.isSome_iff_exists.mp (hw1 w hw)
  have hnot := hnone h w hw hst pp hpp
  obtain ⟨kv, hkvmem, _, hval⟩ := propsLookup_inv hpp
  exact hnot (hval ▸ hw2 kv hkvmem)

/-- A failed `allocate_ready_worker` means no worker is `READY`. -/
theorem allocate_none_no_ready {p : WorkerPool}
    (h : (allocateReadyWorker p).1 = none) :
    ∀ w ∈ p.workers, w.worker_status ≠ WorkerStatus.READY := by
  unfold allocateReadyWorker at h
  cases hf : p.workers.find?
      (fun w => w.worker_status == WorkerStatus.READY) with
  | some w => rw [hf] at h; exact absurd h (by simp)
  | none =>
    intro w hw hst
    have := List.find?_eq_none.mp hf w hw
    simp [hst] at this

/-- What a successful `allocate_ready_worker` returns: the first `READY`
worker, flipped to `BUSY` both in the returned object and in the pool. -/
theorem allocate_some {p : WorkerPool} {w : Worker}
    (h : (allocateReadyWorker p).1 = some w) :
    ∃ wr ∈ p.workers, wr.worker_status = WorkerStatus.READY ∧
      w = { wr with worker_status := WorkerStatus.BUSY } ∧
      (allocateReadyWorker p).2 =
        poolSetStatus p wr.worker_id WorkerStatus.BUSY := by
  unfold allocateReadyWorker at h ⊢
  cases hf : p.workers.find?
      (fun w => w.worker_status == WorkerStatus.READY) with
  | none => rw [hf] at h; exact absurd h (by simp)
  | some wr =>
    rw [hf] at h
    refine ⟨wr, List.mem_of_find?_eq_some hf,
      by simpa using List.find?_some hf, ?_, rfl⟩
    have h1 : some { wr with worker_status := WorkerStatus.BUSY } = some w := h
    exact (Option.some.inj h1).symm

/-- Every slot of a status-updated worker list comes from the original
slot with the same id and type. -/
theorem setWorkerStatus_mem {ws : List Worker} {wid : Nat}
    {st : WorkerStatus} :
    ∀ w ∈ setWorkerStatus ws wid st,
      ∃ w₀ ∈ ws, w₀.worker_id = w.worker_id ∧
        w₀.worker_type = w.worker_type := by
  intro w hw
  unfold setWorkerStatus at hw
  obtain ⟨w₀, hmem, heq⟩ := List.mem_map.mp hw
  by_cases hid : w₀.worker_id = wid
  · rw [if_pos hid] at heq
    exact ⟨w₀, hmem, by rw [← heq], by rw [← heq]⟩
  · rw [if_neg hid] at heq
    exact ⟨w₀, hmem, by rw [heq], by rw [heq]⟩

/-- Ids survive a status update. -/
theorem setWorkerStatus_mem_of (ws : List Worker) (wid : Nat)
    (st : WorkerStatus) :
    ∀ w₀ ∈ ws, ∃ w ∈ setWorkerStatus ws wid st,
      w.worker_id = w₀.worker_id := by
  intro w₀ hmem
  unfold setWorkerStatus
  by_cases hid : w₀.worker_id = wid
  · exact ⟨{ w₀ with worker_status := st },
      List.mem_map.mpr ⟨w₀, hmem, by rw [if_pos hid]⟩, rfl⟩
  · exact ⟨w₀, List.mem_map.mpr ⟨w₀, hmem, by rw [if_neg hid]⟩, rfl⟩

/-- After setting a non-`BUSY` status, every `BUSY` worker is an untouched
original worker with a different id. -/
theorem setWorkerStatus_busy {ws : List Worker} {wid : Nat}
    {st : WorkerStatus} (hst : st ≠ WorkerStatus.BUSY) :
    ∀ w ∈ setWorkerStatus ws wid st,
      w.worker_status = WorkerStatus.BUSY →
      w ∈ ws ∧ w.worker_status = WorkerStatus.BUSY ∧
        w.worker_id ≠ wid := by
  intro w hw hb
  unfold setWorkerStatus at hw
  obtain ⟨w₀, hmem, heq⟩ := List.mem_map.mp hw
  by_cases hid : w₀.worker_id = wid
  · rw [if_pos hid] at heq
    rw [← heq] at hb
    exact absurd (show st = WorkerStatus.BUSY from hb) hst
  · rw [if_neg hid] at heq
    rw [← heq]
    rw [← heq] at hb
    exact ⟨hmem, hb, hid⟩

/-- After setting a worker `BUSY`, every `BUSY` worker either has the
updated id or was already `BUSY` with a different id. -/
theorem setWorkerStatus_busy_of_busy {ws : List Worker} {wid : Nat} :
    ∀ w ∈ setWorkerStatus ws wid WorkerStatus.BUSY,
      w.worker_status = WorkerStatus.BUSY →
      w.worker_id = wid ∨
        (w ∈ ws ∧ w.worker_status = WorkerStatus.BUSY ∧
          w.worker_id ≠ wid) := by
  intro w hw hb
  unfold setWorkerStatus at hw
  obtain ⟨w₀, hmem, heq⟩ := List.mem_map.mp hw
  by_cases hid : w₀.worker_id = wid
  · left
    rw [if_pos hid] at heq
    rw [← heq]
    exact hid
  · right
    rw [if_neg hid] at heq
    rw [← heq] at hb ⊢
    exact ⟨hmem, hb, hid⟩

/-- Status updates keep the pool structurally well formed. -/
theorem poolWF_setStatus {p : WorkerPool} (h : PoolWF p) (wid : Nat)
    (st : WorkerStatus) : PoolWF (poolSetStatus p wid st) := by
  obtain ⟨h1, h2, h3, h4, h5⟩ := h
  refine ⟨?_, h2, h3, ?_, h5⟩
  · intro w hw
    obtain ⟨w₀, hmem, _, hty⟩ := setWorkerStatus_mem w hw
    show (propsLookup p.pool_props w.worker_type).isSome = true
    rw [← hty]
    exact h1 w₀ hmem
  · show (setWorkerStatus p.workers wid st).Pairwise _
    unfold setWorkerStatus
    rw [List.pairwise_map]
    have hproj : ∀ (x : Worker),
        ((if x.worker_id = wid then { x with worker_status := st }
          else x) : Worker).worker_id = x.worker_id := by
      intro x
      by_cases hx : x.worker_id = wid
      · rw [if_pos hx]
      · rw [if_neg hx]
    refine h4.imp ?_
    intro a b hab
    rw [hproj a, hproj b]
    exact hab

/-- Status updates keep the pool populated. -/
theorem poolSetStatus_ne_nil {p : WorkerPool} (h : p.workers ≠ [])
    (wid : Nat) (st : WorkerStatus) :
    (poolSetStatus p wid st).workers ≠ [] := by
  show setWorkerStatus p.workers wid st ≠ []
  unfold setWorkerStatus
  simpa using h

/-- Pushed queues hold exactly the pushed event and the old events. -/
theorem mem_push_iff {q : EventQueue EventData} {t : Int} {ty : String}
    {d : EventData} {e : Event EventData} :
    e ∈ (q.push t ty d).events ↔ e = ⟨t, ty, d⟩ ∨ e ∈ q.events := by
  show e ∈ heappush q.events ⟨t, ty, d⟩ ↔ _
  rw [(heappush_perm q.events ⟨t, ty, d⟩).mem_iff]
  exact List.mem_cons

theorem jobCount_perm {l l' : List (Event EventData)}
    (h : List.Perm l l') : jobCount l = jobCount l' :=
  (h.filter isJobEvent).length_eq

theorem jobCount_cons_job {l : List (Event EventData)}
    {e : Event EventData} (he : isJobEvent e = true) :
    jobCount (e :: l) = jobCount l + 1 := by
  unfold jobCount
  rw [List.filter_cons_of_pos he]
  rfl

theorem jobCount_cons_worker {l : List (Event EventData)}
    {e : Event EventData} (he : isJobEvent e = false) :
    jobCount (e :: l) = jobCount l := by
  unfold jobCount
  rw [List.filter_cons_of_neg (by simp [he])]

/-- Pushing a worker event does not change the job ledger of the queue. -/
theorem jobCount_push_worker (q : EventQueue EventData) (t : Int)
    (ty : String) (w : Worker) :
    jobCount (q.push t ty (EventData.worker w)).events =
      jobCount q.events := by
  have h := jobCount_perm
    (heappush_perm q.events ⟨t, ty, EventData.worker w⟩)
  have h2 : jobCount ((⟨t, ty, EventData.worker w⟩ : Event EventData)
      :: q.events) = jobCount q.events := jobCount_cons_worker rfl
  exact h.trans h2

/-- Pushing a job event adds one job to the ledger of the queue. -/
theorem jobCount_push_job (q : EventQueue EventData) (t : Int)
    (ty : String) (j : Job) :
    jobCount (q.push t ty (EventData.job j)).events =
      jobCount q.events + 1 := by
  have h := jobCount_perm (heappush_perm q.events ⟨t, ty, EventData.job j⟩)
  have h2 : jobCount ((⟨t, ty, EventData.job j⟩ : Event EventData)
      :: q.events) = jobCount q.events + 1 := jobCount_cons_job rfl
  exact h.trans h2

/-- A successful `EventQueue.pop` splits off exactly the popped event. -/
theorem pop_fst_some_perm {q : EventQueue EventData} {e : Event EventData}
    (hemp : q.isEmpty = false) (h : q.pop.1 = some e) :
    List.Perm q.events (e :: q.pop.2.events) := by
  have hne : q.events ≠ [] := by
    simpa [EventQueue.isEmpty, List.length_eq_zero] using hemp
  have h1 : (heappop q.events).1 = some e := by
    have hp : q.pop = ((heappop q.events).1,
        ⟨(heappop q.events).2, q.event_count - 1⟩) := by
      unfold EventQueue.pop
      rw [if_neg (by rw [hemp]; exact Bool.false_ne_true)]
    rw [hp] at h
    exact h
  have h2 : q.pop.2.events = (heappop q.events).2 := by
    unfold EventQueue.pop
    rw [if_neg (by rw [hemp]; exact Bool.false_ne_true)]
  rw [h2]
  exact heappop_perm hne e h1

theorem handleEvent_js_alloc (cfg : SimConfig) (fuel : Nat) (s : SimState)
    (t : Int) (job : Job) {w₀ : Worker} {pool' : WorkerPool}
    (h : allocateReadyWorker s.workers_pool = (some w₀, pool')) :
    handleEvent cfg (fuel + 1) s (HandlerCall.jobSubmitted t job) =
      ({ s with
          workers_pool := pool',
          completed_jobs := s.completed_jobs ++ [{ job with
            start_execution_time := t,
            server_type := some w₀.worker_type,
            server_id := some w₀.worker_id }],
          event_queue := (s.event_queue.push
            (t + (cfg.job_duration job.job_type : Int))
            EventType.WORKER_DONE (EventData.worker w₀)) }, true) := by
  simp only [handleEvent, h]

theorem handleEvent_js_none_none (cfg : SimConfig) (fuel : Nat)
    (s : SimState) (t : Int) (job : Job) {p₂ : WorkerPool}
    (h : allocateReadyWorker s.workers_pool = (none, p₂))
    (hinv : invoke_worker s.workers_pool = none) :
    handleEvent cfg (fuel + 1) s (HandlerCall.jobSubmitted t job) =
      ({ s with pending_jobs := s.pending_jobs ++ [job] }, true) := by
  simp only [handleEvent, h, hinv]

theorem handleEvent_js_invoke0 (cfg : SimConfig) (fuel : Nat)
    (s : SimState) (t : Int) (job : Job) {p₂ : WorkerPool} {w : Worker}
    (h : allocateReadyWorker s.workers_pool = (none, p₂))
    (hinv : invoke_worker s.workers_pool = some w)
    (hact : workerActivationTime s.workers_pool w = 0) :
    handleEvent cfg (fuel + 1) s (HandlerCall.jobSubmitted t job) =
      handleEvent cfg fuel
        { s with
            pending_jobs := s.pending_jobs ++ [job],
            workers_pool := poolSetStatus s.workers_pool w.worker_id
              WorkerStatus.READY }
        (HandlerCall.workerReady t w) := by
  simp only [handleEvent, h, hinv, hact, if_pos]

theorem handleEvent_js_invoke_pos (cfg : SimConfig) (fuel : Nat)
    (s : SimState) (t : Int) (job : Job) {p₂ : WorkerPool} {w : Worker}
    (h : allocateReadyWorker s.workers_pool = (none, p₂))
    (hinv : invoke_worker s.workers_pool = some w)
    (hact : workerActivationTime s.workers_pool w ≠ 0) :
    handleEvent cfg (fuel + 1) s (HandlerCall.jobSubmitted t job) =
      ({ s with
          pending_jobs := s.pending_jobs ++ [job],
          event_queue := (s.event_queue.push
            (t + (workerActivationTime s.workers_pool w : Int))
            EventType.WORKER_READY (EventData.worker w)) }, true) := by
  simp only [handleEvent, h, hinv]
  rw [if_neg hact]

theorem handleEvent_wr_pending (cfg : SimConfig) (fuel : Nat)
    (s : SimState) (t : Int) (w : Worker) (j : Job) (rest : List Job)
    (h : s.pending_jobs = j :: rest) :
    handleEvent cfg (fuel + 1) s (HandlerCall.workerReady t w) =
      handleEvent cfg fuel
        { s with
            workers_pool := poolSetStatus s.workers_pool w.worker_id
              WorkerStatus.READY,
            pending_jobs := rest }
        (HandlerCall.jobSubmitted t j) := by
  simp only [handleEvent, h]

theorem handleEvent_wr_empty (cfg : SimConfig) (fuel : Nat) (s : SimState)
    (t : Int) (w : Worker) (h : s.pending_jobs = []) :
    handleEvent cfg (fuel + 1) s (HandlerCall.workerReady t w) =
      ({ s with
          workers_pool := poolSetStatus s.workers_pool w.worker_id
            WorkerStatus.READY,
          event_queue := (s.event_queue.push
            (t + (workerShutdownTime (poolSetStatus s.workers_pool
              w.worker_id WorkerStatus.READY) w : Int))
            EventType.WORKER_TO_POOL (EventData.worker w)) }, true) := by
  simp only [handleEvent, h]

/-- A handler call that does not run out of fuel preserves the kernel data
invariant, re-establishes the progress invariant, and settles exactly the
jobs it holds in hand. -/
theorem handleEvent_core (cfg : SimConfig) :
    ∀ (fuel : Nat) (s : SimState) (c : HandlerCall),
      PoolWF s.workers_pool →
      s.workers_pool.workers ≠ [] →
      (∀ w ∈ s.workers_pool.workers,
        w.worker_status = WorkerStatus.BUSY →
        callExcludes c w.worker_id → HasDoneFor s w.worker_id) →
      (∀ e ∈ s.event_queue.events, ∀ x, e.data = EventData.worker x →
        ∃ y ∈ s.workers_pool.workers, y.worker_id = x.worker_id) →
      (∀ e ∈ s.event_queue.events, isJobEvent e = true →
        e.event_type = EventType.JOB_SUBMITTED) →
      (∀ t w, c = HandlerCall.workerReady t w →
        ∃ y ∈ s.workers_pool.workers, y.worker_id = w.worker_id) →
      (handleEvent cfg fuel s c).2 = true →
      KernelCore (handleEvent cfg fuel s c).1 ∧
      PendingLive (handleEvent cfg fuel s c).1 ∧
      jobSum (handleEvent cfg fuel s c).1 = jobSum s + callJobs c := by
  intro fuel
  induction fuel with
  | zero =>
    intro s c _ _ _ _ _ _ hflag
    exact absurd hflag (by simp [handleEvent])
  | succ fuel ih =>
    intro s c hwf hnil hbusy hids hjs hcall hflag
    cases c with
    | jobSubmitted t job =>
      rcases halloc : allocateReadyWorker s.workers_pool with ⟨o, pool'⟩
      cases o with
      | some w₀ =>
        have hfst : (allocateReadyWorker s.workers_pool).1 = some w₀ := by
          rw [halloc]
        obtain ⟨wr, hwrmem, hwrst, hw₀, hpool'⟩ := allocate_some hfst
        have hpe : pool' =
            poolSetStatus s.workers_pool wr.worker_id WorkerStatus.BUSY := by
          rw [halloc] at hpool'
          exact hpool'
        rw [handleEvent_js_alloc cfg fuel s t job halloc]
        refine ⟨⟨?_, ?_, ?_, ?_, ?_⟩, ?_, ?_⟩
        · show PoolWF pool'
          rw [hpe]
          exact poolWF_setStatus hwf _ _
        · show pool'.workers ≠ []
          rw [hpe]
          exact poolSetStatus_ne_nil hnil _ _
        · intro w hw hb
          rw [hpe] at hw
          rcases setWorkerStatus_busy_of_busy w hw hb with hid | ⟨hmem, hb', hne⟩
          · refine ⟨⟨t + (cfg.job_duration job.job_type : Int),
              EventType.WORKER_DONE, EventData.worker w₀⟩,
              mem_push_iff.mpr (Or.inl rfl), rfl, w₀, rfl, ?_⟩
            rw [hw₀]
            show wr.worker_id = w.worker_id
            rw [hid]
          · obtain ⟨e, he, hty, x, hdx, hxid⟩ := hbusy w hmem hb' trivial
            exact ⟨e, mem_push_iff.mpr (Or.inr he), hty, x, hdx, hxid⟩
        · intro e he x hdx
          rcases mem_push_iff.mp he with rfl | hold
          · have hdx' : EventData.worker w₀ = EventData.worker x := hdx
            have hx : w₀ = x := EventData.worker.inj hdx'
            rw [hpe]
            obtain ⟨y, hy, hyid⟩ := setWorkerStatus_mem_of
              s.workers_pool.workers wr.worker_id WorkerStatus.BUSY wr hwrmem
            refine ⟨y, hy, ?_⟩
            rw [hyid, ← hx, hw₀]
          · obtain ⟨y, hy, hyid⟩ := hids e hold x hdx
            rw [hpe]
            obtain ⟨y', hy', hy'id⟩ := setWorkerStatus_mem_of
              s.workers_pool.workers wr.worker_id WorkerStatus.BUSY y hy
            exact ⟨y', hy', by rw [hy'id, hyid]⟩
        · intro e he hje
          rcases mem_push_iff.mp he with rfl | hold
          · simp [isJobEvent] at hje
          · exact hjs e hold hje
        · intro _
          exact ⟨⟨t + (cfg.job_duration job.job_type : Int),
            EventType.WORKER_DONE, EventData.worker w₀⟩,
            mem_push_iff.mpr (Or.inl rfl), Or.inr rfl⟩
        · show jobSum _ = jobSum s + callJobs (HandlerCall.jobSubmitted t job)
          simp only [jobSum, callJobs, List.length_append, List.length_cons,
            List.length_nil]
          rw [jobCount_push_worker]
          omega
      | none =>
        cases hinv : invoke_worker s.workers_pool with
        | none =>
          rw [handleEvent_js_none_none cfg fuel s t job halloc hinv]
          refine ⟨⟨hwf, hnil, ?_, hids, hjs⟩, ?_, ?_⟩
          · intro w hw hb
            exact hbusy w hw hb trivial
          · intro _
            obtain ⟨wh, hwh⟩ := List.exists_mem_of_ne_nil _ hnil
            cases hst : wh.worker_status with
            | READY =>
              exact absurd hst
                (allocate_none_no_ready (by rw [halloc]) wh hwh)
            | IN_POOL =>
              exact absurd hst (invoke_none_no_inpool hwf hinv wh hwh)
            | BUSY =>
              obtain ⟨e, he, hty, _⟩ := hbusy wh hwh hst trivial
              exact ⟨e, he, Or.inr hty⟩
          · simp only [jobSum, callJobs, List.length_append,
              List.length_cons, List.length_nil]
            omega
        | some w =>
          obtain ⟨hwmem, hwst⟩ := invoke_some_mem hinv
          by_cases hact : workerActivationTime s.workers_pool w = 0
          · rw [handleEvent_js_invoke0 cfg fuel s t job halloc hinv hact]
              at hflag ⊢
            obtain ⟨hc, hp, hs⟩ := ih
              { s with
                  pending_jobs := s.pending_jobs ++ [job],
                  workers_pool := poolSetStatus s.workers_pool w.worker_id
                    WorkerStatus.READY }
              (HandlerCall.workerReady t w)
              (poolWF_setStatus hwf _ _)
              (poolSetStatus_ne_nil hnil _ _)
              (by
                intro w' hw' hb' _
                obtain ⟨hmem, hb'', _⟩ :=
                  setWorkerStatus_busy (by decide) w' hw' hb'
                exact hbusy w' hmem hb'' trivial)
              (by
                intro e he x hdx
                obtain ⟨y, hy, hyid⟩ := hids e he x hdx
                obtain ⟨y', hy', hy'id⟩ := setWorkerStatus_mem_of
                  s.workers_pool.workers w.worker_id WorkerStatus.READY y hy
                exact ⟨y', hy', by rw [hy'id, hyid]⟩)
              hjs
              (by
                intro t' w' heq
                injection heq with h1 h2
                subst h2
                obtain ⟨y, hy, hyid⟩ := setWorkerStatus_mem_of
                  s.workers_pool.workers w.worker_id WorkerStatus.READY w hwmem
                exact ⟨y, hy, hyid⟩)
              hflag
            refine ⟨hc, hp, ?_⟩
            rw [hs]
            simp only [jobSum, callJobs, List.length_append,
              List.length_cons, List.length_nil]
            omega
          · rw [handleEvent_js_invoke_pos cfg fuel s t job halloc hinv hact]
            refine ⟨⟨hwf, hnil, ?_, ?_, ?_⟩, ?_, ?_⟩
            · intro w' hw' hb'
              obtain ⟨e, he, hty, x, hdx, hxid⟩ := hbusy w' hw' hb' trivial
              exact ⟨e, mem_push_iff.mpr (Or.inr he), hty, x, hdx, hxid⟩
            · intro e he x hdx
              rcases mem_push_iff.mp he with rfl | hold
              · have hdx' : EventData.worker w = EventData.worker x := hdx
                have hx : w = x := EventData.worker.inj hdx'
                exact ⟨w, hwmem, by rw [hx]⟩
              · exact hids e hold x hdx
            · intro e he hje
              rcases mem_push_iff.mp he with rfl | hold
              · simp [isJobEvent] at hje
              · exact hjs e hold hje
            · intro _
              exact ⟨⟨t + (workerActivationTime s.workers_pool w : Int),
                EventType.WORKER_READY, EventData.worker w⟩,
                mem_push_iff.mpr (Or.inl rfl), Or.inl rfl⟩
            · show jobSum _ = jobSum s + callJobs (HandlerCall.jobSubmitted t job)
              simp only [jobSum, callJobs, List.length_append,
                List.length_cons, List.length_nil]
              rw [jobCount_push_worker]
              omega
    | workerReady t w =>
      obtain ⟨yw, hyw, hywid⟩ := hcall t w rfl
      cases hpend : s.pending_jobs with
      | cons j rest =>
        rw [handleEvent_wr_pending cfg fuel s t w j rest hpend] at hflag ⊢
        obtain ⟨hc, hp, hs⟩ := ih
          { s with
              workers_pool := poolSetStatus s.workers_pool w.worker_id
                WorkerStatus.READY,
              pending_jobs := rest }
          (HandlerCall.jobSubmitted t j)
          (poolWF_setStatus hwf _ _)
          (poolSetStatus_ne_nil hnil _ _)
          (by
            intro w' hw' hb' _
            obtain ⟨hmem, hb'', hne⟩ :=
              setWorkerStatus_busy (by decide) w' hw' hb'
            exact hbusy w' hmem hb'' hne.symm)
          (by
            intro e he x hdx
            obtain ⟨y, hy, hyid⟩ := hids e he x hdx
            obtain ⟨y', hy', hy'id⟩ := setWorkerStatus_mem_of
              s.workers_pool.workers w.worker_id WorkerStatus.READY y hy
            exact ⟨y', hy', by rw [hy'id, hyid]⟩)
          hjs
          (by
            intro t' w' heq
            exact HandlerCall.noConfusion heq)
          hflag
        refine ⟨hc, hp, ?_⟩
        rw [hs]
        simp only [jobSum, callJobs]
        rw [hpend]
        simp only [List.length_cons]
        omega
      | nil =>
        rw [handleEvent_wr_empty cfg fuel s t w hpend]
        refine ⟨⟨poolWF_setStatus hwf _ _, poolSetStatus_ne_nil hnil _ _,
          ?_, ?_, ?_⟩, ?_, ?_⟩
        · intro w' hw' hb'
          obtain ⟨hmem, hb'', hne⟩ :=
            setWorkerStatus_busy (by decide) w' hw' hb'
          obtain ⟨e, he, hty, x, hdx, hxid⟩ := hbusy w' hmem hb'' hne.symm
          exact ⟨e, mem_push_iff.mpr (Or.inr he), hty, x, hdx, hxid⟩
        · intro e he x hdx
          rcases mem_push_iff.mp he with rfl | hold
          · have hdx' : EventData.worker w = EventData.worker x := hdx
            have hx : w = x := EventData.worker.inj hdx'
            obtain ⟨y, hy, hyid⟩ := setWorkerStatus_mem_of
              s.workers_pool.workers w.worker_id WorkerStatus.READY yw hyw
            exact ⟨y, hy, by rw [hyid, hywid, hx]⟩
          · obtain ⟨y, hy, hyid⟩ := hids e hold x hdx
            obtain ⟨y', hy', hy'id⟩ := setWorkerStatus_mem_of
              s.workers_pool.workers w.worker_id WorkerStatus.READY y hy
            exact ⟨y', hy', by rw [hy'id, hyid]⟩
        · intro e he hje
          rcases mem_push_iff.mp he with rfl | hold
          · simp [isJobEvent] at hje
          · exact hjs e hold hje
        · intro hne
          exact absurd hpend hne
        · show jobSum _ = jobSum s + callJobs (HandlerCall.workerReady t w)
          simp only [jobSum, callJobs]
          rw [jobCount_push_worker]
          omega

theorem and_eq_true_elim {a b : Bool} (h : (a && b) = true) :
    a = true ∧ b = true := by
  simp at h
  exact h

/-- The run loop preserves the kernel invariants and the job ledger, and
a `true` flag means it drained the queue. -/
theorem runAux_core (cfg : SimConfig) (hfuel : Nat) :
    ∀ (fuel : Nat) (s : SimState),
      KernelCore s → PendingLive s →
      (runAux cfg hfuel fuel s).2 = true →
      KernelCore (runAux cfg hfuel fuel s).1 ∧
      PendingLive (runAux cfg hfuel fuel s).1 ∧
      jobSum (runAux cfg hfuel fuel s).1 = jobSum s ∧
      (runAux cfg hfuel fuel s).1.event_queue.events = [] := by
  intro fuel
  induction fuel with
  | zero =>
    intro s hc hp hflag
    have hflag' : s.event_queue.isEmpty = true := hflag
    refine ⟨hc, hp, rfl, ?_⟩
    show s.event_queue.events = []
    simpa [EventQueue.isEmpty, List.length_eq_zero] using hflag'
  | succ fuel ih =>
    intro s hc hp hflag
    cases hemp : s.event_queue.isEmpty with
    | true =>
      have hstep : runAux cfg hfuel (fuel + 1) s = (s, true) := by
        simp [runAux, hemp]
      rw [hstep] at hflag ⊢
      refine ⟨hc, hp, rfl, ?_⟩
      show s.event_queue.events = []
      simpa [EventQueue.isEmpty, List.length_eq_zero] using hemp
    | false =>
      cases hpop : s.event_queue.pop.1 with
      | none =>
        have hstep : runAux cfg hfuel (fuel + 1) s = (s, false) := by
          simp [runAux, hemp, hpop]
        rw [hstep] at hflag
        exact absurd hflag (by simp)
      | some e =>
        obtain ⟨hwf, hnil, hbusy, hids, hjs⟩ := hc
        have hperm := pop_fst_some_perm hemp hpop
        have hepop : e ∈ s.event_queue.events :=
          hperm.symm.subset (List.mem_cons_self e _)
        have hsub : ∀ x ∈ s.event_queue.pop.2.events,
            x ∈ s.event_queue.events :=
          fun x hx => hperm.symm.subset (List.mem_cons_of_mem e hx)
        have hmemne : ∀ x ∈ s.event_queue.events, x ≠ e →
            x ∈ s.event_queue.pop.2.events := by
          intro x hx hne
          rcases List.mem_cons.mp (hperm.subset hx) with h1 | h2
          · exact absurd h1 hne
          · exact h2
        cases hjseq : e.event_type == EventType.JOB_SUBMITTED with
        | true =>
          cases hdat : e.data with
          | worker wx =>
            have hstep : runAux cfg hfuel (fuel + 1) s =
                ({ s with event_queue := s.event_queue.pop.2 }, false) := by
              simp [runAux, hemp, hpop, hjseq, hdat]
            rw [hstep] at hflag
            exact absurd hflag (by simp)
          | job j =>
            have hstep : runAux cfg hfuel (fuel + 1) s =
                ((runAux cfg hfuel fuel (handleEvent cfg hfuel
                    { s with event_queue := s.event_queue.pop.2 }
                    (HandlerCall.jobSubmitted e.timestamp j)).1).1,
                  (handleEvent cfg hfuel
                    { s with event_queue := s.event_queue.pop.2 }
                    (HandlerCall.jobSubmitted e.timestamp j)).2 &&
                  (runAux cfg hfuel fuel (handleEvent cfg hfuel
                    { s with event_queue := s.event_queue.pop.2 }
                    (HandlerCall.jobSubmitted e.timestamp j)).1).2) := by
              simp [runAux, hemp, hpop, hjseq, hdat]
            rw [hstep] at hflag ⊢
            have hflag2 := and_eq_true_elim hflag
            obtain ⟨hcH, hpH, hsH⟩ := handleEvent_core cfg hfuel
              { s with event_queue := s.event_queue.pop.2 }
              (HandlerCall.jobSubmitted e.timestamp j)
              hwf hnil
              (by
                intro w hw hb _
                obtain ⟨ev, hev, hty', x, hdx, hxid⟩ := hbusy w hw hb
                refine ⟨ev, hmemne ev hev ?_, hty', x, hdx, hxid⟩
                intro heq
                rw [heq, hdat] at hdx
                exact EventData.noConfusion hdx)
              (by
                intro ev hev x hdx
                exact hids ev (hsub ev hev) x hdx)
              (by
                intro ev hev hje
                exact hjs ev (hsub ev hev) hje)
              (by
                intro t' w' heq
                exact HandlerCall.noConfusion heq)
              hflag2.1
            obtain ⟨hcF, hpF, hsF, hempF⟩ := ih _ hcH hpH hflag2.2
            refine ⟨hcF, hpF, ?_, hempF⟩
            have hj : isJobEvent e = true := by simp [isJobEvent, hdat]
            have hcnt : jobCount s.event_queue.events =
                jobCount s.event_queue.pop.2.events + 1 := by
              rw [jobCount_perm hperm]
              exact jobCount_cons_job hj
            rw [hsF, hsH]
            simp only [jobSum, callJobs]
            omega
        | false =>
          cases hwr : (e.event_type == EventType.WORKER_READY
              || e.event_type == EventType.WORKER_DONE) with
          | true =>
            cases hdat : e.data with
            | job jx =>
              have hstep : runAux cfg hfuel (fuel + 1) s =
                  ({ s with event_queue := s.event_queue.pop.2 },
                    false) := by
                simp [runAux, hemp, hpop, hjseq, hwr, hdat]
              rw [hstep] at hflag
              exact absurd hflag (by simp)
            | worker w =>
              have hstep : runAux cfg hfuel (fuel + 1) s =
                  ((runAux cfg hfuel fuel (handleEvent cfg hfuel
                      { s with event_queue := s.event_queue.pop.2 }
                      (HandlerCall.workerReady e.timestamp w)).1).1,
                    (handleEvent cfg hfuel
                      { s with event_queue := s.event_queue.pop.2 }
                      (HandlerCall.workerReady e.timestamp w)).2 &&
                    (runAux cfg hfuel fuel (handleEvent cfg hfuel
                      { s with event_queue := s.event_queue.pop.2 }
                      (HandlerCall.workerReady e.timestamp w)).1).2) := by
                simp [runAux, hemp, hpop, hjseq, hwr, hdat]
              rw [hstep] at hflag ⊢
              have hflag2 := and_eq_true_elim hflag
              obtain ⟨hcH, hpH, hsH⟩ := handleEvent_core cfg hfuel
                { s with event_queue := s.event_queue.pop.2 }
                (HandlerCall.workerReady e.timestamp w)
                hwf hnil
                (by
                  intro w' hw' hb' hex
                  obtain ⟨ev, hev, hty', x, hdx, hxid⟩ := hbusy w' hw' hb'
                  refine ⟨ev, hmemne ev hev ?_, hty', x, hdx, hxid⟩
                  intro heq
                  rw [heq, hdat] at hdx
                  have hx : w = x := EventData.worker.inj hdx
                  apply hex
                  rw [hx]
                  exact hxid)
                (by
                  intro ev hev x hdx
                  exact hids ev (hsub ev hev) x hdx)
                (by
                  intro ev hev hje
                  exact hjs ev (hsub ev hev) hje)
                (by
                  intro t' w' heq
                  injection heq with h1 h2
                  subst h2
                  exact hids e hepop w hdat)
                hflag2.1
              obtain ⟨hcF, hpF, hsF, hempF⟩ := ih _ hcH hpH hflag2.2
              refine ⟨hcF, hpF, ?_, hempF⟩
              have hj : isJobEvent e = false := by simp [isJobEvent, hdat]
              have hcnt : jobCount s.event_queue.events =
                  jobCount s.event_queue.pop.2.events := by
                rw [jobCount_perm hperm]
                exact jobCount_cons_worker hj
              rw [hsF, hsH]
              simp only [jobSum, callJobs]
              omega
          | false =>
            cases htp : e.event_type == EventType.WORKER_TO_POOL with
            | true =>
              cases hdat : e.data with
              | job jx =>
                have hstep : runAux cfg hfuel (fuel + 1) s =
                    ({ s with event_queue := s.event_queue.pop.2 },
                      false) := by
                  simp [runAux, hemp, hpop, hjseq, hwr, htp, hdat]
                rw [hstep] at hflag
                exact absurd hflag (by simp)
              | worker w =>
                have hte : e.event_type = EventType.WORKER_TO_POOL := by
                  simpa using htp
                have hstep : runAux cfg hfuel (fuel + 1) s =
                    runAux cfg hfuel fuel (handleWorkerToPool
                      { s with event_queue := s.event_queue.pop.2 } w) := by
                  simp [runAux, hemp, hpop, hjseq, hwr, htp, hdat]
                rw [hstep] at hflag ⊢
                have hcN : KernelCore (handleWorkerToPool
                    { s with event_queue := s.event_queue.pop.2 } w) := by
                  refine ⟨poolWF_setStatus hwf _ _,
                    poolSetStatus_ne_nil hnil _ _, ?_, ?_, ?_⟩
                  · intro w' hw' hb'
                    obtain ⟨hmem, hb'', hne⟩ :=
                      setWorkerStatus_busy (by decide) w' hw' hb'
                    obtain ⟨ev, hev, hty', x, hdx, hxid⟩ :=
                      hbusy w' hmem hb''
                    refine ⟨ev, hmemne ev hev ?_, hty', x, hdx, hxid⟩
                    intro heq
                    rw [heq, hdat] at hdx
                    have hx : w = x := EventData.worker.inj hdx
                    apply hne
                    rw [← hxid, ← hx]
                  · intro ev hev x hdx
                    obtain ⟨y, hy, hyid⟩ := hids ev (hsub ev hev) x hdx
                    obtain ⟨y', hy', hy'id⟩ := setWorkerStatus_mem_of
                      s.workers_pool.workers w.worker_id
                      WorkerStatus.IN_POOL y hy
                    exact ⟨y', hy', by rw [hy'id, hyid]⟩
                  · intro ev hev hje
                    exact hjs ev (hsub ev hev) hje
                have hpN : PendingLive (handleWorkerToPool
                    { s with event_queue := s.event_queue.pop.2 } w) := by
                  intro hne
                  obtain ⟨ev, hev, hwe⟩ := hp hne
                  refine ⟨ev, hmemne ev hev ?_, hwe⟩
                  intro heq
                  rcases hwe with h1 | h1
                  · rw [heq, hte] at h1
                    exact absurd h1 (by decide)
                  · rw [heq, hte] at h1
                    exact absurd h1 (by decide)
                obtain ⟨hcF, hpF, hsF, hempF⟩ := ih _ hcN hpN hflag
                refine ⟨hcF, hpF, ?_, hempF⟩
                have hj : isJobEvent e = false := by simp [isJobEvent, hdat]
                have hcnt : jobCount s.event_queue.events =
                    jobCount s.event_queue.pop.2.events := by
                  rw [jobCount_perm hperm]
                  exact jobCount_cons_worker hj
                rw [hsF]
                simp only [jobSum, handleWorkerToPool]
                omega
            | false =>
              have hne0 : e.event_type ≠ EventType.JOB_SUBMITTED := by
                intro h
                rw [h] at hjseq
                exact absurd hjseq (by decide)
              have hne1 : e.event_type ≠ EventType.WORKER_READY := by
                intro h
                rw [h] at hwr
                exact absurd hwr (by decide)
              have hne2 : e.event_type ≠ EventType.WORKER_DONE := by
                intro h
                rw [h] at hwr
                exact absurd hwr (by decide)
              have hstep : runAux cfg hfuel (fuel + 1) s =
                  runAux cfg hfuel fuel
                    { s with event_queue := s.event_queue.pop.2 } := by
                simp [runAux, hemp, hpop, hjseq, hwr, htp]
              have hcN : KernelCore
                  { s with event_queue := s.event_queue.pop.2 } := by
                refine ⟨hwf, hnil, ?_, ?_, ?_⟩
                · intro w' hw' hb'
                  obtain ⟨ev, hev, hty', x, hdx, hxid⟩ := hbusy w' hw' hb'
                  refine ⟨ev, hmemne ev hev ?_, hty', x, hdx, hxid⟩
                  intro heq
                  rw [heq] at hty'
                  exact hne2 hty'
                · intro ev hev x hdx
                  exact hids ev (hsub ev hev) x hdx
                · intro ev hev hje
                  exact hjs ev (hsub ev hev) hje
              have hpN : PendingLive
                  { s with event_queue := s.event_queue.pop.2 } := by
                intro hne
                obtain ⟨ev, hev, hwe⟩ := hp hne
                refine ⟨ev, hmemne ev hev ?_, hwe⟩
                intro heq
                rcases hwe with h1 | h1
                · rw [heq] at h1
                  exact hne1 h1
                · rw [heq] at h1
                  exact hne2 h1
              rw [hstep] at hflag ⊢
              obtain ⟨hcF, hpF, hsF, hempF⟩ := ih _ hcN hpN hflag
              refine ⟨hcF, hpF, ?_, hempF⟩
              have hj : isJobEvent e = false := by
                cases hdat : e.data with
                | job jx =>
                  exact absurd (hjs e hepop (by simp [isJobEvent, hdat]))
                    hne0
                | worker wx => simp [isJobEvent, hdat]
              have hcnt : jobCount s.event_queue.events =
                  jobCount s.event_queue.pop.2.events := by
                rw [jobCount_perm hperm]
                exact jobCount_cons_worker hj
              rw [hsF]
              simp only [jobSum]
              omega

/-- Every event of the seeded queue is a `JOB_SUBMITTED` event stamped
with its job's submission time (or came from the starting queue). -/
theorem seedQueue_mem (jobs : List Job) :
    ∀ (q : EventQueue EventData) (e : Event EventData),
      e ∈ (jobs.foldl (fun q job => q.push job.submission_time
        EventType.JOB_SUBMITTED (EventData.job job)) q).events →
      e ∈ q.events ∨ ∃ j ∈ jobs,
        e = ⟨j.submission_time, EventType.JOB_SUBMITTED,
          EventData.job j⟩ := by
  induction jobs with
  | nil => intro q e he; exact Or.inl he
  | cons j t ih =>
    intro q e he
    rw [List.foldl_cons] at he
    rcases ih _ e he with hq | ⟨j', hj', he'⟩
    · rcases mem_push_iff.mp hq with he' | hq'
      · exact Or.inr ⟨j, List.mem_cons_self j t, he'⟩
      · exact Or.inl hq'
    · exact Or.inr ⟨j', List.mem_cons_of_mem j hj', he'⟩

/-- Seeding puts one job event per job on the queue. -/
theorem seedQueue_count (jobs : List Job) :
    ∀ (q : EventQueue EventData),
      jobCount (jobs.foldl (fun q job => q.push job.submission_time
        EventType.JOB_SUBMITTED (EventData.job job)) q).events =
      jobCount q.events + jobs.length := by
  induction jobs with
  | nil => intro q; rfl
  | cons j t ih =>
    intro q
    rw [List.foldl_cons, ih, jobCount_push_job]
    simp only [List.length_cons]
    omega

/-- The freshly seeded initial state satisfies the kernel invariant as
soon as the configuration defines at least one worker. -/
theorem initState_core (cfg : SimConfig) (jobs : List Job)
    (hpool : (WorkerPool.init cfg.worker_definitions).workers ≠ []) :
    KernelCore (initJobsInQueue (SimState.start cfg) jobs) := by
  refine ⟨poolWF_init _, hpool, ?_, ?_, ?_⟩
  · intro w hw hb
    obtain ⟨_, hst, _⟩ := buildWorkersAux_mem _ 0 w hw
    rw [hst] at hb
    exact absurd hb (by decide)
  · intro e he x hdx
    rcases seedQueue_mem jobs EventQueue.init e he with h0 | ⟨j, _, hej⟩
    · simp [EventQueue.init] at h0
    · rw [hej] at hdx
      have hdx' : EventData.job j = EventData.worker x := hdx
      exact EventData.noConfusion hdx'
  · intro e he _
    rcases seedQueue_mem jobs EventQueue.init e he with h0 | ⟨j, _, hej⟩
    · simp [EventQueue.init] at h0
    · rw [hej]

/-- C7: counterexample to the unconditional claim.  With no worker tiers
configured, the lone submitted job parks in `pending_jobs` forever: the
run drains the queue without any fuel exhaustion (flag `true`) yet
completes zero of the one submitted job. -/
theorem claim7_counterexample :
    c7Run.2 = true ∧ c7Run.1.pending_jobs ≠ [] ∧
    c7Run.1.completed_jobs.length = 0 := by
  decide

/-- C7 (amended): on a configuration with at least one worker, a run that
drains the queue without fuel exhaustion completes every submitted job:
the pending list ends empty and the completed list holds exactly one
entry per seeded job. -/
theorem claim7_all_jobs_complete (cfg : SimConfig) (jobs : List Job)
    (hfuel fuel : Nat)
    (hpool : (WorkerPool.init cfg.worker_definitions).workers ≠ [])
    (hok : (runAux cfg hfuel fuel
      (initJobsInQueue (SimState.start cfg) jobs)).2 = true) :
    (runAux cfg hfuel fuel
      (initJobsInQueue (SimState.start cfg) jobs)).1.pending_jobs = [] ∧
    (runAux cfg hfuel fuel
      (initJobsInQueue (SimState.start cfg) jobs)).1.completed_jobs.length
      = jobs.length := by
  obtain ⟨hcF, hpF, hsF, hempF⟩ := runAux_core cfg hfuel fuel
    (initJobsInQueue (SimState.start cfg) jobs)
    (initState_core cfg jobs hpool)
    (fun h => absurd rfl h)
    hok
  have hpend : (runAux cfg hfuel fuel
      (initJobsInQueue (SimState.start cfg) jobs)).1.pending_jobs = [] := by
    by_contra h
    obtain ⟨e, he, _⟩ := hpF h
    rw [hempF] at he
    simp at he
  refine ⟨hpend, ?_⟩
  have hinit : jobSum (initJobsInQueue (SimState.start cfg) jobs) =
      jobs.length := by
    show jobCount (jobs.foldl (fun q job => q.push job.submission_time
        EventType.JOB_SUBMITTED (EventData.job job))
        (SimState.start cfg).event_queue).events
      + ([] : List Job).length + ([] : List Job).length = jobs.length
    rw [seedQueue_count]
    simp [jobCount, SimState.start, EventQueue.init]
  have hfinal := hsF
  unfold jobSum at hfinal
  rw [hempF, hpend] at hfinal
  have hfinal' : (runAux cfg hfuel fuel
      (initJobsInQueue (SimState.start cfg) jobs)).1.completed_jobs.length
      = jobSum (initJobsInQueue (SimState.start cfg) jobs) := by
    simpa [jobCount] using hfinal
  rw [hfinal', hinit]

theorem pop_snd_events {α : Type} {q : EventQueue α}
    (hemp : q.isEmpty = false) :
    q.pop.2.events = (heappop q.events).2 := by
  unfold EventQueue.pop
  rw [if_neg (by rw [hemp]; exact Bool.false_ne_true)]

theorem isHeap_pop {α : Type} {q : EventQueue α} (h : IsHeap q.events)
    (hemp : q.isEmpty = false) : IsHeap q.pop.2.events := by
  rw [pop_snd_events hemp]
  exact isHeap_heappop h

/-- On a heap-shaped queue, the popped event has the minimal timestamp. -/
theorem pop_min_of_isHeap {α : Type} {q : EventQueue α} {e : Event α}
    (h : IsHeap q.events) (hemp : q.isEmpty = false)
    (hpop : q.pop.1 = some e) :
    ∀ ev ∈ q.events, e.timestamp ≤ ev.timestamp := by
  have hne : q.events ≠ [] := by
    simpa [EventQueue.isEmpty, List.length_eq_zero] using hemp
  have hfst : q.pop.1 = q.events[0]? := by
    unfold EventQueue.pop
    rw [if_neg (by rw [hemp]; exact Bool.false_ne_true)]
    exact heappop_fst hne
  rw [hfst] at hpop
  intro ev hev
  obtain ⟨j, hj⟩ := List.mem_iff_getElem?.mp hev
  exact isHeap_root_le h j e ev hpop hj

/-- A handler call at time `t`, on a state whose queued events all lie at
or after `t` and whose pending jobs were all submitted by `t`, preserves
the temporal invariant and keeps both bounds. -/
theorem handleEvent_time (cfg : SimConfig) :
    ∀ (fuel : Nat) (s : SimState) (c : HandlerCall),
      SimTimeInv s →
      (∀ e ∈ s.event_queue.events, callTime c ≤ e.timestamp) →
      (∀ j ∈ s.pending_jobs, j.submission_time ≤ callTime c) →
      (∀ t j, c = HandlerCall.jobSubmitted t j →
        j.submission_time ≤ t) →
      SimTimeInv (handleEvent cfg fuel s c).1 ∧
      (∀ e ∈ (handleEvent cfg fuel s c).1.event_queue.events,
        callTime c ≤ e.timestamp) ∧
      (∀ j ∈ (handleEvent cfg fuel s c).1.pending_jobs,
        j.submission_time ≤ callTime c) := by
  intro fuel
  induction fuel with
  | zero =>
    intro s c hinv hqt hpt _
    exact ⟨hinv, hqt, hpt⟩
  | succ fuel ih =>
    intro s c hinv hqt hpt hsb
    obtain ⟨hheap, hcomp, hjsp, hplb⟩ := hinv
    cases c with
    | jobSubmitted t job =>
      have hjob : job.submission_time ≤ t := hsb t job rfl
      rcases halloc : allocateReadyWorker s.workers_pool with ⟨o, pool'⟩
      cases o with
      | some w₀ =>
        rw [handleEvent_js_alloc cfg fuel s t job halloc]
        refine ⟨⟨?_, ?_, ?_, ?_⟩, ?_, ?_⟩
        · exact isHeap_heappush hheap _
        · intro jc hjc
          rcases List.mem_append.mp hjc with hold | hnew
          · exact hcomp jc hold
          · rw [List.mem_singleton.mp hnew]
            exact ⟨hjob, rfl, rfl⟩
        · intro ev hev jx hdx
          rcases mem_push_iff.mp hev with rfl | hold
          · have hdx' : EventData.worker w₀ = EventData.job jx := hdx
            exact EventData.noConfusion hdx'
          · exact hjsp ev hold jx hdx
        · intro jp hjp ev hev
          rcases mem_push_iff.mp hev with rfl | hold
          · have h1 := hpt jp hjp
            have hct : callTime (HandlerCall.jobSubmitted t job) = t := rfl
            show jp.submission_time ≤
              t + (cfg.job_duration job.job_type : Int)
            omega
          · exact hplb jp hjp ev hold
        · intro ev hev
          rcases mem_push_iff.mp hev with rfl | hold
          · show t ≤ t + (cfg.job_duration job.job_type : Int)
            omega
          · exact hqt ev hold
        · exact hpt
      | none =>
        cases hinvk : invoke_worker s.workers_pool with
        | none =>
          rw [handleEvent_js_none_none cfg fuel s t job halloc hinvk]
          refine ⟨⟨hheap, hcomp, hjsp, ?_⟩, hqt, ?_⟩
          · intro jp hjp ev hev
            rcases List.mem_append.mp hjp with hold | hnew
            · exact hplb jp hold ev hev
            · have hje : jp = job := List.mem_singleton.mp hnew
              rw [hje]
              exact le_trans hjob (hqt ev hev)
          · intro jp hjp
            rcases List.mem_append.mp hjp with hold | hnew
            · exact hpt jp hold
            · have hje : jp = job := List.mem_singleton.mp hnew
              rw [hje]
              exact hjob
        | some w =>
          by_cases hact : workerActivationTime s.workers_pool w = 0
          · rw [handleEvent_js_invoke0 cfg fuel s t job halloc hinvk hact]
            exact ih
              { s with
                  pending_jobs := s.pending_jobs ++ [job],
                  workers_pool := poolSetStatus s.workers_pool w.worker_id
                    WorkerStatus.READY }
              (HandlerCall.workerReady t w)
              ⟨hheap, hcomp, hjsp, by
                intro jp hjp ev hev
                rcases List.mem_append.mp hjp with hold | hnew
                · exact hplb jp hold ev hev
                · have hje : jp = job := List.mem_singleton.mp hnew
                  rw [hje]
                  exact le_trans hjob (hqt ev hev)⟩
              hqt
              (by
                intro jp hjp
                rcases List.mem_append.mp hjp with hold | hnew
                · exact hpt jp hold
                · have hje : jp = job := List.mem_singleton.mp hnew
                  rw [hje]
                  exact hjob)
              (by intro t' j' heq; exact HandlerCall.noConfusion heq)
          · rw [handleEvent_js_invoke_pos cfg fuel s t job halloc hinvk hact]
            refine ⟨⟨?_, hcomp, ?_, ?_⟩, ?_, ?_⟩
            · exact isHeap_heappush hheap _
            · intro ev hev jx hdx
              rcases mem_push_iff.mp hev with rfl | hold
              · have hdx' : EventData.worker w = EventData.job jx := hdx
                exact EventData.noConfusion hdx'
              · exact hjsp ev hold jx hdx
            · intro jp hjp ev hev
              rcases List.mem_append.mp hjp with hold | hnew
              · rcases mem_push_iff.mp hev with rfl | holde
                · have h1 := hpt jp hold
                  have hct : callTime (HandlerCall.jobSubmitted t job)
                    = t := rfl
                  show jp.submission_time ≤
                    t + (workerActivationTime s.workers_pool w : Int)
                  omega
                · exact hplb jp hold ev holde
              · have hje : jp = job := List.mem_singleton.mp hnew
                rcases mem_push_iff.mp hev with rfl | holde
                · rw [hje]
                  show job.submission_time ≤
                    t + (workerActivationTime s.workers_pool w : Int)
                  omega
                · rw [hje]
                  exact le_trans hjob (hqt ev holde)
            · intro ev hev
              rcases mem_push_iff.mp hev with rfl | hold
              · show t ≤ t + (workerActivationTime s.workers_pool w : Int)
                omega
              · exact hqt ev hold
            · intro jp hjp
              rcases List.mem_append.mp hjp with hold | hnew
              · exact hpt jp hold
              · have hje : jp = job := List.mem_singleton.mp hnew
                rw [hje]
                exact hjob
    | workerReady t w =>
      cases hpend : s.pending_jobs with
      | cons j rest =>
        have hjmem : j ∈ s.pending_jobs := by
          rw [hpend]
          exact List.mem_cons_self j rest
        rw [handleEvent_wr_pending cfg fuel s t w j rest hpend]
        exact ih
          { s with
              workers_pool := poolSetStatus s.workers_pool w.worker_id
                WorkerStatus.READY,
              pending_jobs := rest }
          (HandlerCall.jobSubmitted t j)
          ⟨hheap, hcomp, hjsp, by
            intro jp hjp ev hev
            exact hplb jp (by rw [hpend]; exact List.mem_cons_of_mem j hjp)
              ev hev⟩
          hqt
          (by
            intro jp hjp
            exact hpt jp (by rw [hpend]; exact List.mem_cons_of_mem j hjp))
          (by
            intro t' j' heq
            injection heq with h1 h2
            subst h1
            subst h2
            exact hpt j hjmem)
      | nil =>
        rw [handleEvent_wr_empty cfg fuel s t w hpend]
        refine ⟨⟨?_, hcomp, ?_, ?_⟩, ?_, ?_⟩
        · exact isHeap_heappush hheap _
        · intro ev hev jx hdx
          rcases mem_push_iff.mp hev with rfl | hold
          · have hdx' : EventData.worker w = EventData.job jx := hdx
            exact EventData.noConfusion hdx'
          · exact hjsp ev hold jx hdx
        · intro jp hjp ev hev
          rw [hpend] at hjp
          exact absurd hjp (List.not_mem_nil jp)
        · intro ev hev
          rcases mem_push_iff.mp hev with rfl | hold
          · show t ≤ t + (workerShutdownTime (poolSetStatus s.workers_pool
              w.worker_id WorkerStatus.READY) w : Int)
            omega
          · exact hqt ev hold
        · intro jp hjp
          rw [hpend] at hjp
          exact absurd hjp (List.not_mem_nil jp)

/-- The run loop preserves the temporal invariant. -/
theorem runAux_time (cfg : SimConfig) (hfuel : Nat) :
    ∀ (fuel : Nat) (s : SimState), SimTimeInv s →
      SimTimeInv (runAux cfg hfuel fuel s).1 := by
  intro fuel
  induction fuel with
  | zero => intro s h; exact h
  | succ fuel ih =>
    intro s h
    cases hemp : s.event_queue.isEmpty with
    | true =>
      have hstep : runAux cfg hfuel (fuel + 1) s = (s, true) := by
        simp [runAux, hemp]
      rw [hstep]
      exact h
    | false =>
      cases hpop : s.event_queue.pop.1 with
      | none =>
        have hstep : runAux cfg hfuel (fuel + 1) s = (s, false) := by
          simp [runAux, hemp, hpop]
        rw [hstep]
        exact h
      | some e =>
        obtain ⟨hheap, hcomp, hjsp, hplb⟩ := h
        have hperm := pop_fst_some_perm hemp hpop
        have hepop : e ∈ s.event_queue.events :=
          hperm.symm.subset (List.mem_cons_self e _)
        have hsub : ∀ x ∈ s.event_queue.pop.2.events,
            x ∈ s.event_queue.events :=
          fun x hx => hperm.symm.subset (List.mem_cons_of_mem e hx)
        have hmin := pop_min_of_isHeap hheap hemp hpop
        have hinv₁ : SimTimeInv
            { s with event_queue := s.event_queue.pop.2 } :=
          ⟨isHeap_pop hheap hemp, hcomp,
            fun ev hev jx hdx => hjsp ev (hsub ev hev) jx hdx,
            fun jp hjp ev hev => hplb jp hjp ev (hsub ev hev)⟩
        have hqt₁ : ∀ ev ∈ s.event_queue.pop.2.events,
            e.timestamp ≤ ev.timestamp :=
          fun ev hev => hmin ev (hsub ev hev)
        have hpt₁ : ∀ jp ∈ s.pending_jobs,
            jp.submission_time ≤ e.timestamp :=
          fun jp hjp => hplb jp hjp e hepop
        cases hjseq : e.event_type == EventType.JOB_SUBMITTED with
        | true =>
          cases hdat : e.data with
          | worker wx =>
            have hstep : runAux cfg hfuel (fuel + 1) s =
                ({ s with event_queue := s.event_queue.pop.2 }, false) := by
              simp [runAux, hemp, hpop, hjseq, hdat]
            rw [hstep]
            exact hinv₁
          | job j =>
            have hstep : runAux cfg hfuel (fuel + 1) s =
                ((runAux cfg hfuel fuel (handleEvent cfg hfuel
                    { s with event_queue := s.event_queue.pop.2 }
                    (HandlerCall.jobSubmitted e.timestamp j)).1).1,
                  (handleEvent cfg hfuel
                    { s with event_queue := s.event_queue.pop.2 }
                    (HandlerCall.jobSubmitted e.timestamp j)).2 &&
                  (runAux cfg hfuel fuel (handleEvent cfg hfuel
                    { s with event_queue := s.event_queue.pop.2 }
                    (HandlerCall.jobSubmitted e.timestamp j)).1).2) := by
              simp [runAux, hemp, hpop, hjseq, hdat]
            rw [hstep]
            exact ih _ (handleEvent_time cfg hfuel
              { s with event_queue := s.event_queue.pop.2 }
              (HandlerCall.jobSubmitted e.timestamp j)
              hinv₁ hqt₁ hpt₁
              (by
                intro t' j' heq
                injection heq with h1 h2
                subst h1
                subst h2
                exact le_of_eq (hjsp e hepop j hdat).symm)).1
        | false =>
          cases hwr : (e.event_type == EventType.WORKER_READY
              || e.event_type == EventType.WORKER_DONE) with
          | true =>
            cases hdat : e.data with
            | job jx =>
              have hstep : runAux cfg hfuel (fuel + 1) s =
                  ({ s with event_queue := s.event_queue.pop.2 },
                    false) := by
                simp [runAux, hemp, hpop, hjseq, hwr, hdat]
              rw [hstep]
              exact hinv₁
            | worker w =>
              have hstep : runAux cfg hfuel (fuel + 1) s =
                  ((runAux cfg hfuel fuel (handleEvent cfg hfuel
                      { s with event_queue := s.event_queue.pop.2 }
                      (HandlerCall.workerReady e.timestamp w)).1).1,
                    (handleEvent cfg hfuel
                      { s with event_queue := s.event_queue.pop.2 }
                      (HandlerCall.workerReady e.timestamp w)).2 &&
                    (runAux cfg hfuel fuel (handleEvent cfg hfuel
                      { s with event_queue := s.event_queue.pop.2 }
                      (HandlerCall.workerReady e.timestamp w)).1).2) := by
                simp [runAux, hemp, hpop, hjseq, hwr, hdat]
              rw [hstep]
              exact ih _ (handleEvent_time cfg hfuel
                { s with event_queue := s.event_queue.pop.2 }
                (HandlerCall.workerReady e.timestamp w)
                hinv₁ hqt₁ hpt₁
                (by intro t' j' heq; exact HandlerCall.noConfusion heq)).1
          | false =>
            cases htp : e.event_type == EventType.WORKER_TO_POOL with
            | true =>
              cases hdat : e.data with
              | job jx =>
                have hstep : runAux cfg hfuel (fuel + 1) s =
                    ({ s with event_queue := s.event_queue.pop.2 },
                      false) := by
                  simp [runAux, hemp, hpop, hjseq, hwr, htp, hdat]
                rw [hstep]
                exact hinv₁
              | worker w =>
                have hstep : runAux cfg hfuel (fuel + 1) s =
                    runAux cfg hfuel fuel (handleWorkerToPool
                      { s with event_queue := s.event_queue.pop.2 } w) := by
                  simp [runAux, hemp, hpop, hjseq, hwr, htp, hdat]
                rw [hstep]
                exact ih (handleWorkerToPool
                  { s with event_queue := s.event_queue.pop.2 } w) hinv₁
            | false =>
              have hstep : runAux cfg hfuel (fuel + 1) s =
                  runAux cfg hfuel fuel
                    { s with event_queue := s.event_queue.pop.2 } := by
                simp [runAux, hemp, hpop, hjseq, hwr, htp]
              rw [hstep]
              exact ih _ hinv₁

/-- Seeding preserves the heap shape of the queue. -/
theorem seedQueue_isHeap (jobs : List Job) :
    ∀ (q : EventQueue EventData), IsHeap q.events →
      IsHeap (jobs.foldl (fun q job => q.push job.submission_time
        EventType.JOB_SUBMITTED (EventData.job job)) q).events := by
  induction jobs with
  | nil => intro q h; exact h
  | cons j t ih =>
    intro q h
    rw [List.foldl_cons]
    exact ih _ (isHeap_heappush h _)

/-- The freshly seeded initial state satisfies the temporal invariant. -/
theorem initState_time (cfg : SimConfig) (jobs : List Job) :
    SimTimeInv (initJobsInQueue (SimState.start cfg) jobs) := by
  refine ⟨?_, ?_, ?_, ?_⟩
  · refine seedQueue_isHeap jobs EventQueue.init ?_
    intro j hj x y hx hy
    simp [EventQueue.init] at hx
  · intro j hj
    simp [initJobsInQueue, SimState.start] at hj
  · intro e he jx hdx
    rcases seedQueue_mem jobs EventQueue.init e he with h0 | ⟨j, _, hej⟩
    · simp [EventQueue.init] at h0
    · rw [hej] at hdx ⊢
      have hdx' : EventData.job j = EventData.job jx := hdx
      have hj : j = jx := EventData.job.inj hdx'
      show j.submission_time = jx.submission_time
      rw [hj]
  · intro jp hjp
    simp [initJobsInQueue, SimState.start] at hjp

/-- C8: at any point of a run (any iteration bound), every completed job
started no earlier than it was submitted, and its server tier and server
id are set. -/
theorem claim8_completed_fields (cfg : SimConfig) (jobs : List Job)
    (hfuel fuel : Nat) :
    ∀ j ∈ (runAux cfg hfuel fuel
      (initJobsInQueue (SimState.start cfg) jobs)).1.completed_jobs,
      j.submission_time ≤ j.start_execution_time ∧
      j.server_type.isSome = true ∧ j.server_id.isSome = true := by
  intro j hj
  exact (runAux_time cfg hfuel fuel _ (initState_time cfg jobs)).2.1 j hj

/-- Witness for `claim8_completed_fields`: the first completed job of the
concrete S4 run. -/
theorem claim8_completed_fields_witness :
    (⟨0, "S", "C", 0, 0, some "H", some 0⟩ : Job).submission_time ≤
      (⟨0, "S", "C", 0, 0, some "H", some 0⟩ : Job).start_execution_time ∧
    ((⟨0, "S", "C", 0, 0, some "H", some 0⟩ : Job).server_type).isSome
      = true ∧
    ((⟨0, "S", "C", 0, 0, some "H", some 0⟩ : Job).server_id).isSome
      = true :=
  claim8_completed_fields s4Config s4Jobs 8 32
    ⟨0, "S", "C", 0, 0, some "H", some 0⟩ (by decide)

/-- Jobs appended by the inner request loop are stamped with the request
time. -/
theorem appendJobs_mem (cfg : GenConfig) :
    ∀ (n : Nat) (g : JobGenerator) (t : Int) (ut : String),
      ∀ j ∈ (appendJobs cfg n g t ut).jobs,
        j ∈ g.jobs ∨ j.submission_time = t := by
  intro n
  induction n with
  | zero => intro g t ut j hj; exact Or.inl hj
  | succ n ih =>
    intro g t ut j hj
    rcases ih _ t ut j hj with hin | hs
    · rcases List.mem_append.mp hin with h1 | h2
      · exact Or.inl h1
      · right
        rw [List.mem_singleton.mp h2]
        rfl
    · exact Or.inr hs

theorem handle_user_request_mem (cfg : GenConfig) (g : JobGenerator)
    (nd : Nat) (t : Int) :
    ∀ j ∈ (handle_user_request cfg g nd t).jobs,
      j ∈ g.jobs ∨ j.submission_time = t := by
  intro j hj
  have h := appendJobs_mem cfg nd
    { g with user_type_index := g.user_type_index + 1 } t
    (listCycle cfg.user_types g.user_type_index) j hj
  exact h

/-- Lower bound maintained by the generation loop: once the clock is at
or past `T0` and the jobs so far are all at or past `T0`, every job ever
produced is at or past `T0`. -/
theorem generate_jobsAux_lb (cfg : GenConfig) (gaps nums : Nat → Nat)
    (T0 : Int) :
    ∀ (fuel k : Nat) (g : JobGenerator) (time endt : Int),
      T0 ≤ time →
      (∀ j ∈ g.jobs, T0 ≤ j.submission_time) →
      ∀ j ∈ (generate_jobsAux cfg gaps nums fuel k g time endt).1.jobs,
        T0 ≤ j.submission_time := by
  intro fuel
  induction fuel with
  | zero => intro k g time endt _ hg j hj; exact hg j hj
  | succ fuel ih =>
    intro k g time endt ht hg j hj
    by_cases hlt : time < endt
    · rw [show generate_jobsAux cfg gaps nums (fuel + 1) k g time endt =
          generate_jobsAux cfg gaps nums fuel (k + 1)
            (handle_user_request cfg g (nums k) (time + (gaps k : Int)))
            (time + (gaps k : Int)) endt from by
            simp only [generate_jobsAux]
            rw [if_pos hlt]] at hj
      refine ih (k + 1) _ _ endt (by omega) ?_ j hj
      intro jx hjx
      rcases handle_user_request_mem cfg g (nums k) _ jx hjx with h1 | h2
      · exact hg jx h1
      · rw [h2]
        omega
    · rw [show generate_jobsAux cfg gaps nums (fuel + 1) k g time endt =
          (g, true) from by
            simp only [generate_jobsAux]
            rw [if_neg hlt]] at hj
      exact hg j hj

/-- C4: counterexample to the claimed window.  With start 0 and end 10
and a first inter-arrival draw of 50 (drawable: `int(expovariate(...))`
can be any non-negative integer), the user request lands at time 50 and
its job is submitted at 50 ∉ [0, 10): `generate_jobs` pushes requests
past the end of the window instead of clipping them. -/
theorem claim4_counterexample :
    c4Run.2 = true ∧
    ∃ j ∈ c4Run.1, ¬((0 : Int) ≤ j.submission_time ∧
      j.submission_time < 10) := by
  decide

/-- C4 (amended): every job returned by `generate_jobs(T0, T1)` has
submission time at least `T0`, and when `T0 ≥ T1` the returned list is
empty; the upper bound `< T1` of the original claim is dropped (see the
counterexample). -/
theorem claim4_generate_jobs (cfg : GenConfig) (gaps nums : Nat → Nat)
    (fuel : Nat) (T0 T1 : Int) :
    (∀ j ∈ (generate_jobs cfg gaps nums fuel T0 T1).1,
      T0 ≤ j.submission_time) ∧
    (T1 ≤ T0 → (generate_jobs cfg gaps nums fuel T0 T1).1 = []) := by
  constructor
  · intro j hj
    refine generate_jobsAux_lb cfg gaps nums T0 fuel 0 JobGenerator.init
      T0 T1 (le_refl _) ?_ j hj
    intro jx hjx
    exact absurd hjx (by simp [JobGenerator.init])
  · intro hge
    cases fuel with
    | zero => rfl
    | succ fuel =>
      show (generate_jobsAux cfg gaps nums (fuel + 1) 0 JobGenerator.init
        T0 T1).1.jobs = []
      rw [show generate_jobsAux cfg gaps nums (fuel + 1) 0
          JobGenerator.init T0 T1 = (JobGenerator.init, true) from by
          simp only [generate_jobsAux]
          rw [if_neg (by omega)]]
      rfl

/-- Witness for `claim4_generate_jobs` at the concrete inputs of the
counterexample run. -/
theorem claim4_generate_jobs_witness :
    (∀ j ∈ (generate_jobs ⟨["U"], ["S"]⟩ (fun _ => 50) (fun _ => 1)
        4 0 10).1, (0 : Int) ≤ j.submission_time) ∧
    ((10 : Int) ≤ 0 → (generate_jobs ⟨["U"], ["S"]⟩ (fun _ => 50)
        (fun _ => 1) 4 0 10).1 = []) :=
  claim4_generate_jobs ⟨["U"], ["S"]⟩ (fun _ => 50) (fun _ => 1) 4 0 10

/-- C5: with an empty completed list, `print_statistics` raises at its
very first data access — `max()` over the empty generator — instead of
skipping the block or reporting zeros (the neighbouring
`print_wait_times` does guard with `if wait_times:`). -/
theorem claim5_statistics_raises (s : SimState)
    (h : s.completed_jobs = []) :
    simlated_time s = Except.error "max() arg is an empty sequence" := by
  unfold simlated_time
  rw [h]
  rfl

/-- Witness for `claim5_statistics_raises` on a freshly initialised
simulation state. -/
theorem claim5_statistics_raises_witness :
    simlated_time (SimState.start s4Config) =
      Except.error "max() arg is an empty sequence" :=
  claim5_statistics_raises (SimState.start s4Config) rfl

unseal Rat.add Rat.mul Rat.inv Rat.sub in
/-- Model sanity check: on small data the embedding reproduces the real
run exactly — `SimHistogram([0, 5, 12])` builds 10 bins of width 2 (the
rounded `12 / 10 + 1 = 2.2000000000000002` truncates to 2) and counts
the points at indices 0, 2 and 6. -/
theorem simHistogram_small_ok :
    SimHistogram.init [0, 5, 12] 10 = Except.ok
      ⟨0, 12, 3, 2,
        [⟨0, 1, 1⟩, ⟨2, 3, 0⟩, ⟨4, 5, 1⟩, ⟨6, 7, 0⟩, ⟨8, 9, 0⟩,
          ⟨10, 11, 0⟩, ⟨12, 13, 1⟩, ⟨14, 15, 0⟩, ⟨16, 17, 0⟩,
          ⟨18, 19, 0⟩]⟩ := by
  decide

unseal Rat.add Rat.mul Rat.inv Rat.sub in
/-- C9: the claimed safety fails on the real arithmetic.  On data
`[0, 90071992547409930]` with the default 10 bins, the double quotient
`(max - min) / 10` rounds to `9007199254740992.0` (the exact value
`9007199254740993` is odd and above 2^53, so not representable;
`+ 1` then rounds back down), so `bin_width = 9007199254740992` where
exact arithmetic would give `9007199254740994`; the max value's index
`(val - min) / bin_width` rounds up to `10.000000000000002`, `int()`
gives 10, and `self.bins[10]` raises `IndexError`. -/
theorem claim9_index_error :
    pyTrunc (roundFloat (floatDiv (listMax [0, 90071992547409930] -
        listMin [0, 90071992547409930]) (10 : Int) + 1)) =
      9007199254740992 ∧
    binIdx 0 9007199254740992 90071992547409930 = 10 ∧
    SimHistogram.init [0, 90071992547409930] 10 =
      Except.error "IndexError" := by
  refine ⟨by decide, by decide, by decide⟩

/-- Witness for `claim7_all_jobs_complete` on the concrete S4 run. -/
theorem claim7_all_jobs_complete_witness :
    (runAux s4Config 8 32
      (initJobsInQueue (SimState.start s4Config) s4Jobs)).1.pending_jobs
      = [] ∧
    (runAux s4Config 8 32
      (initJobsInQueue (SimState.start s4Config)
        s4Jobs)).1.completed_jobs.length = s4Jobs.length :=
  claim7_all_jobs_complete s4Config s4Jobs 8 32 (by decide) (by decide)

end JobSim
